import Mathlib

/-
Verification development for the flashtext-js keyword matcher
(src/flashtext.ts).  The TypeScript class FlashText stores keywords in a
trie whose nodes are JavaScript Maps of type
  KeywordTrieDictionary = Map<string, KeywordTrieDictionary | string>.
Keys are either single characters or the reserved sentinel string
'_keyword_' (field this._keyword) marking "a keyword ends here"; the value
under the sentinel is the clean name (label).  A single character can never
equal the nine-character sentinel, so keys are modelled by the sum type
TKey below, and a Map by an insertion-ordered association list of entries.

Modelling conventions, fixed once here:
* JS strings are modelled as Lean String / List Char (sequences of code
  points).  All concrete inputs in this file are ASCII, where JS UTF-16
  indexing, String#toLowerCase and Lean Char.toLower agree.
* JS Map.get / Map.has / Map.set / Map.delete / Map.size are modelled by
  mget / mhas / mset / mdel / msize on the entry list; Map iteration order
  (insertion order) is the list order.
* In every store built through the public API, character keys map to
  sub-Maps and the sentinel key maps to a string label.  The helper
  accessors below fix those types (vhas / vget return child values,
  vgetLabel returns the label when it is a string); on malformed trie
  values - a character key mapping to a string, or the sentinel mapping to
  a Map - the original JS would raise a TypeError or carry a Map where a
  string is expected.  Such values are unreachable from the API and are
  outside every theorem below.
* The generator _levensthein is consumed only through .next(): it is
  modelled as the full (finite) list of the values it would yield, and the
  callers take the head.  Both call sites destructure .next().value
  without a default, which throws a TypeError when the generator yields
  nothing; that throw is modelled by Except.error JsErr.typeError.
* The while loops of extractKeywords / replaceKeywords move their indices
  non-monotonically, so they are written on explicit fuel; exhausted fuel
  returns Except.error JsErr.outOfFuel.  The public wrappers pass
  sentence length + trie size + 2, which bounds the number of loop steps
  of the JS code (each outer step advances idx, and inner stalls strictly
  descend the trie).
-/

/-- Key of one trie-map entry: a character, or the reserved sentinel
'_keyword_' stored in this._keyword. -/
inductive TKey where
  | ch (c : Char)
  | kw
deriving DecidableEq, Repr

/-- A value of the JS union type KeywordTrieDictionary | string: either a
label string or a nested Map, the Map given as its insertion-ordered entry
list. -/
inductive TrieVal where
  | str (s : String)
  | map (entries : List (TKey × TrieVal))
deriving Repr

/-- Entry list of one trie node (one JS Map). -/
abbrev Entries := List (TKey × TrieVal)

/-- Map.get: first entry with the given key, if any. -/
def mget : Entries → TKey → Option TrieVal
  | [], _ => none
  | (k', v) :: es, k => if k' = k then some v else mget es k

/-- Map.has. -/
def mhas (es : Entries) (k : TKey) : Bool :=
  (mget es k).isSome

/-- Map.set: replaces the value of an existing key in place, otherwise
appends the new entry (JS Maps keep insertion order). -/
def mset : Entries → TKey → TrieVal → Entries
  | [], k, v => [(k, v)]
  | (k', v') :: es, k, v =>
      if k' = k then (k, v) :: es else (k', v') :: mset es k v

/-- Map.delete: removes the entry with the given key, if present. -/
def mdel : Entries → TKey → Entries
  | [], _ => []
  | (k', v') :: es, k => if k' = k then es else (k', v') :: mdel es k

/-- Map.size: number of entries (equal to the JS size because JS Map keys
are unique). -/
def msize (es : Entries) : Nat :=
  es.length

/-- Child lookup through a trie value; a string receiver has no entries
(the JS code would throw on .has / .get of a string, which is unreachable
for stores built through the API). -/
def vget : TrieVal → TKey → Option TrieVal
  | .str _, _ => none
  | .map es, k => mget es k

/-- Membership through a trie value, see vget. -/
def vhas (v : TrieVal) (k : TKey) : Bool :=
  (vget v k).isSome

/-- The label stored under the sentinel key of a node, when it is a
string (it always is, in stores built through the API). -/
def vgetLabel (v : TrieVal) : Option String :=
  match vget v .kw with
  | some (.str s) => some s
  | _ => none

/-- JS truthiness of the looked-up label at the tests
'if (longestSequenceFound)' and 'currentDictContinued?.get(this._keyword)':
an absent value and the empty string are falsy. -/
def labelTruthy : Option String → Bool
  | some s => s ≠ ""
  | none => false

mutual
/-- Number of terminal markers (sentinel entries) reachable from a trie
value, mirroring the traversal of _retrieveAllKeywords: a sentinel entry
counts one and is not descended into, a character entry is descended into
when its value is a Map. -/
def countTerminals : TrieVal → Nat
  | .str _ => 0
  | .map es => countEntries es

/-- Terminal count of an entry list, see countTerminals. -/
def countEntries : Entries → Nat
  | [] => 0
  | (.kw, _) :: es => 1 + countEntries es
  | (.ch _, v) :: es => countTerminals v + countEntries es
end

mutual
/-- Size (number of constructors) of a trie value; used only to compute a
sufficient fuel bound for the scanning loops. -/
def trieSize : TrieVal → Nat
  | .str _ => 1
  | .map es => 1 + entriesSize es

/-- Size of an entry list, see trieSize. -/
def entriesSize : Entries → Nat
  | [] => 0
  | (_, v) :: es => 1 + trieSize v + entriesSize es
end

/-- State of one FlashText instance: the five mutable fields of the class
(the constant this._keyword sentinel is the TKey.kw constructor). -/
structure FlashText where
  whiteSpaceChars : List Char
  nonWordBoundaries : List Char
  keywordTrieDict : TrieVal
  caseSensitive : Bool
  termsInTrie : Int
deriving Repr

/-- The constructor new FlashText(caseSensitive): empty trie, zero terms,
whitespace set {'.', '\t', '\n', ' ', ','}, non-word boundaries = digits,
ASCII letters and underscore. -/
def mkFlashText (caseSensitive : Bool) : FlashText :=
  { whiteSpaceChars := ['.', '\t', '\n', ' ', ',']
    nonWordBoundaries :=
      "0123456789".data ++
        "abcdefghijklmnopqrstuvwxyzABCDEFGHIJKLMNOPQRSTUVWXYZ".data ++ ['_']
    keywordTrieDict := .map []
    caseSensitive := caseSensitive
    termsInTrie := 0 }

/-- Case normalization applied by every operation: word.toLowerCase()
unless the store is case sensitive (ASCII-faithful). -/
def normWord (st : FlashText) (w : List Char) : List Char :=
  if st.caseSensitive then w else w.map Char.toLower

/-- Root entry list of the store (the root is always a Map). -/
def rootEntries (st : FlashText) : Entries :=
  match st.keywordTrieDict with
  | .map es => es
  | .str _ => []

/-- The character walk shared by contains and _getItem: follows one child
Map per character and fails if some character has no Map child (in the JS
code the loop breaks and the final lenCovered === word.length test fails). -/
def walkEntries : Entries → List Char → Option Entries
  | es, [] => some es
  | es, c :: cs =>
      match mget es (.ch c) with
      | some (.map es') => walkEntries es' cs
      | _ => none

/-- Entry-list form of contains: full walk and sentinel test. -/
def containsEntries (es : Entries) (ks : List Char) : Bool :=
  match walkEntries es ks with
  | some es' => mhas es' .kw
  | none => false

/-- Entry-list form of _getItem: full walk, then the label under the
sentinel when it is a string. -/
def lookupEntries (es : Entries) (ks : List Char) : Option String :=
  match walkEntries es ks with
  | some es' =>
      match mget es' .kw with
      | some (.str s) => some s
      | _ => none
  | none => none

/-- The raw sentinel value after a full walk; containsEntries and
lookupEntries are both views of it. -/
def lookupRaw (es : Entries) (ks : List Char) : Option TrieVal :=
  match walkEntries es ks with
  | some es' => mget es' .kw
  | none => none

/-- FlashText#contains: normalizes, walks the whole word and tests the
sentinel at the final node. -/
def contains (st : FlashText) (word : String) : Bool :=
  containsEntries (rootEntries st) (normWord st word.data)

/-- FlashText#_getItem / getKeyword: like contains but returns the stored
label; undefined (none) when the walk is incomplete, the sentinel is
absent, or its value is a Map. -/
def getItem (st : FlashText) (word : String) : Option String :=
  lookupEntries (rootEntries st) (normWord st word.data)

/-- FlashText#getKeyword, a direct call of _getItem. -/
def getKeyword (st : FlashText) (word : String) : Option String :=
  getItem st word

/-- Trie update of _setItem: walks or creates one child per character
(an existing non-Map child is overwritten by a fresh Map, as Map.set
does); at the final node the sentinel is set only when absent.  Returns
the new entry list and the status (true when the sentinel was set). -/
def setEntries : Entries → List Char → String → Entries × Bool
  | es, [], label =>
      if mhas es .kw then (es, false) else (mset es .kw (.str label), true)
  | es, c :: cs, label =>
      match mget es (.ch c) with
      | some (.map es') =>
          let r := setEntries es' cs label
          (mset es (.ch c) (.map r.1), r.2)
      | _ =>
          let r := setEntries [] cs label
          (mset es (.ch c) (.map r.1), r.2)

/-- FlashText#_setItem: rejects the empty keyword, defaults the clean name
to the (un-normalized) keyword, normalizes, updates the trie and
increments the term count exactly when the sentinel was newly set. -/
def setItem (st : FlashText) (keyword : String) (cleanName : Option String) :
    Bool × FlashText :=
  if keyword = "" then (false, st)
  else
    let cn := cleanName.getD keyword
    let ks := normWord st keyword.data
    let r := setEntries (rootEntries st) ks cn
    (r.2,
      { st with
          keywordTrieDict := .map r.1
          termsInTrie := if r.2 then st.termsInTrie + 1 else st.termsInTrie })

/-- FlashText#addKeyword, a direct call of _setItem. -/
def addKeyword (st : FlashText) (keyword : String) (cleanName : Option String) :
    Bool × FlashText :=
  setItem st keyword cleanName

/-- Trie update of _deleteItem, written as the recursive equivalent of the
JS leaf-to-root loop over the reversed characterTrieList.  The JS loop
deletes the sentinel at the final node, then walks the recorded
(letter, owning node) pairs upward, deleting the letter edge as long as
the owning node had exactly one entry and stopping right after the first
deletion at a larger node.  Equivalently, bottom-up: at the final node the
sentinel entry is removed; the boolean sent upward is "this node had
exactly one entry", and a parent whose child reports true deletes the
child edge (the child, now empty, is unreachable) and reports its own
one-entry test, while a parent whose child reports false keeps the
(rebuilt) child and reports false, matching the break.  Returns none when
the walk breaks or the final node has no sentinel; the JS code then
changes nothing. -/
def delEntries : Entries → List Char → Option (Entries × Bool)
  | es, [] =>
      if mhas es .kw then some (mdel es .kw, msize es == 1) else none
  | es, c :: cs =>
      match mget es (.ch c) with
      | some (.map es') =>
          match delEntries es' cs with
          | none => none
          | some (es'', prune) =>
              if prune then some (mdel es (.ch c), msize es == 1)
              else some (mset es (.ch c) (.map es''), false)
      | _ => none

/-- FlashText#_deleteItem: rejects the empty keyword, normalizes, applies
the pruning walk, and on success decrements the term count. -/
def deleteItem (st : FlashText) (keyword : String) : Bool × FlashText :=
  if keyword = "" then (false, st)
  else
    match delEntries (rootEntries st) (normWord st keyword.data) with
    | none => (false, st)
    | some (es', _) =>
        (true,
          { st with
              keywordTrieDict := .map es'
              termsInTrie := st.termsInTrie - 1 })

/-- FlashText#removeKeyword, a direct call of _deleteItem. -/
def removeKeyword (st : FlashText) (keyword : String) : Bool × FlashText :=
  deleteItem st keyword

/-- One public mutating call of the API, for stating reachability
invariants.  The bulk helpers (addKeywordsFromDict and friends) only
iterate addKeyword / removeKeyword, and the remaining public methods do
not touch the trie. -/
inductive ApiOp where
  | add (keyword : String) (cleanName : Option String)
  | remove (keyword : String)
  | setNWB (cs : List Char)
  | addNWB (c : Char)

/-- Applies one public call to the store. -/
def applyOp (st : FlashText) : ApiOp → FlashText
  | .add k cn => (addKeyword st k cn).2
  | .remove k => (removeKeyword st k).2
  | .setNWB cs => { st with nonWordBoundaries := cs }
  | .addNWB c => { st with nonWordBoundaries := st.nonWordBoundaries ++ [c] }

/-- Applies a sequence of public calls, oldest first. -/
def applyOps (ops : List ApiOp) (st : FlashText) : FlashText :=
  ops.foldl applyOp st

/-- FlashText#_getNextWord: longest prefix of characters that are all in
the non-word-boundaries set. -/
def getNextWord (nwb : List Char) : List Char → List Char
  | [] => []
  | c :: cs => if nwb.contains c then c :: getNextWord nwb cs else []

/-- The substitution increment word[col-1] !== char of the DP recurrence
of _levenshteinRec; a sentinel key never equals a word character. -/
def replCost (k : TKey) (w : Char) : Nat :=
  match k with
  | .ch c => if w ≠ c then 1 else 0
  | .kw => 1

/-- The inner for-loop of _levenshteinRec building newRows from rows: the
first cell rows[0]+1 is already placed; each further column takes
min(insertCost, deleteCost, replaceCost) with
insertCost = newRows[col-1]+1, deleteCost = rows[col]+1 and
replaceCost = rows[col-1] + replCost.  Arguments: the remaining word
characters, the previous-row cell rows[col-1], the remaining previous-row
cells rows[col..], and newRows[col-1]. -/
def rowTail (k : TKey) : List Char → Nat → List Nat → Nat → List Nat
  | [], _, _, _ => []
  | _, _, [], _ => []
  | w :: ws, prevDiag, r :: rs, lastNew =>
      let cost := min (min (lastNew + 1) (r + 1)) (prevDiag + replCost k w)
      cost :: rowTail k ws r rs cost

/-- The full newRows list: rows[0]+1 followed by the loop columns. -/
def newRow (k : TKey) (word : List Char) (rows : List Nat) : List Nat :=
  let h := rows.headD 0 + 1
  h :: rowTail k word (rows.headD 0) rows.tail h

/-- The final value of the mutable variable cost of _levenshteinRec: it
starts at 0 and ends as the last cell written by the loop, so it is 0 for
the empty word and the last cell of newRows otherwise. -/
def lastCost (k : TKey) (word : List Char) (rows : List Nat) : Nat :=
  (rowTail k word (rows.headD 0) rows.tail (rows.headD 0 + 1)).getLastD 0

/-- Minimum of a nonempty list, Math.min(...newRows). -/
def listMin : List Nat → Nat
  | [] => 0
  | h :: t => t.foldl min h

/-- The stop criterion of _levenshteinRec: the node is a Map and one of
its keys is a whitespace character or the sentinel. -/
def stopCrit (wsp : List Char) : TrieVal → Bool
  | .str _ => false
  | .map es =>
      es.any fun e =>
        match e.1 with
        | .ch c => wsp.contains c
        | .kw => true

mutual
/-- FlashText#_levenshteinRec as the list of yielded
(node, cost, depth) triples, in yield order.  The node reached through
key char with DP row rows for word is accepted (one triple, no descent)
when the last cell of the new row is within maxCost and the stop
criterion holds; otherwise its children are explored at depth+1 when the
node is a Map and the minimum of the new row is within maxCost. -/
def levenshteinRec (wsp : List Char) (word : List Char) (maxCost : Nat) :
    Nat → TKey → TrieVal → List Nat → Nat → List (TrieVal × Nat × Nat)
  | 0, _, _, _, _ => []
  | fuel + 1, k, node, rows, depth =>
      let nr := newRow k word rows
      if nr.getLastD 0 ≤ maxCost ∧ stopCrit wsp node then
        [(node, lastCost k word rows, depth)]
      else
        match node with
        | .map es =>
            if listMin nr ≤ maxCost then
              levenshteinList wsp word maxCost fuel es nr (depth + 1)
            else []
        | .str _ => []

/-- The for-loop of _levensthein and the recursive for-loop of
_levenshteinRec: children in insertion order, yields concatenated. -/
def levenshteinList (wsp : List Char) (word : List Char) (maxCost : Nat) :
    Nat → Entries → List Nat → Nat → List (TrieVal × Nat × Nat)
  | _, [], _, _ => []
  | fuel, (k, v) :: es, rows, depth =>
      levenshteinRec wsp word maxCost fuel k v rows depth ++
        levenshteinList wsp word maxCost fuel es rows depth
end

/-- Initial DP row [0, 1, ..., n] of _levensthein. -/
def initRows (n : Nat) : List Nat :=
  (List.range (n + 1))

/-- FlashText#_levensthein from a start node: all yields in order.  A
string start node yields nothing (JS would destructure its characters
into [char, node] pairs with node undefined, which also yields nothing). -/
def levensthein (wsp : List Char) (word : List Char) (maxCost : Nat)
    (fuel : Nat) (startNode : TrieVal) : List (TrieVal × Nat × Nat) :=
  match startNode with
  | .map es => levenshteinList wsp word maxCost fuel es (initRows word.length) 1
  | .str _ => []

/-- The .next().value consumed at both call sites: the first yield of the
generator, none when it yields nothing (the JS destructuring then throws
a TypeError). -/
def levFirst (wsp : List Char) (word : List Char) (maxCost : Nat)
    (fuel : Nat) (startNode : TrieVal) : Option (TrieVal × Nat × Nat) :=
  (levensthein wsp word maxCost fuel startNode).head?


/-- Error outcome of a scanning call: the TypeError thrown when
.next().value of an empty fuzzy generator is destructured, or exhausted
fuel of the loop model (never hit with the wrappers' fuel bound). -/
inductive JsErr where
  | typeError
  | outOfFuel
deriving DecidableEq, Repr

/-- Result of extractKeywords: labels only, or (label, start, end) span
records, depending on the spanInfo flag. -/
inductive ExtractOut where
  | labels (ls : List String)
  | spans (ms : List (String × Nat × Nat))
deriving DecidableEq, Repr

mutual
/-- Decidable equality of trie values (JS object identity is not modelled;
structural equality is what the theorems below compare). -/
def trieDecEq : (a b : TrieVal) → Decidable (a = b)
  | .str s, .str t =>
      if h : s = t then .isTrue (by rw [h]) else .isFalse (by simp [h])
  | .str _, .map _ => .isFalse (by simp)
  | .map _, .str _ => .isFalse (by simp)
  | .map es, .map fs =>
      match entriesDecEq es fs with
      | .isTrue h => .isTrue (by rw [h])
      | .isFalse h => .isFalse (by simp [h])

/-- Decidable equality of entry lists, see trieDecEq. -/
def entriesDecEq : (a b : Entries) → Decidable (a = b)
  | [], [] => .isTrue rfl
  | [], _ :: _ => .isFalse (by simp)
  | _ :: _, [] => .isFalse (by simp)
  | (k, v) :: es, (k', v') :: fs =>
      if hk : k = k' then
        match trieDecEq v v' with
        | .isTrue hv =>
            match entriesDecEq es fs with
            | .isTrue he => .isTrue (by rw [hk, hv, he])
            | .isFalse he => .isFalse (by simp [he])
        | .isFalse hv => .isFalse (by simp [hv])
      else .isFalse (by simp [hk])
end

instance : DecidableEq TrieVal :=
  trieDecEq

/-- Loop state of the inner while (idy < sentenceLen) extension loop of
extractKeywords: scan position idy, trie position currentDictContinued,
longestSequenceFound, sequenceEndPos, isLongerSeqFound and the remaining
budget currCost. -/
structure ExtInner where
  idy : Nat
  cdc : TrieVal
  lsf : Option String
  seqEnd : Nat
  isLonger : Bool
  currCost : Nat
deriving Repr, DecidableEq

/-- One pass of the inner extension loop of extractKeywords (source lines
543-585): on a boundary character with a truthy label at the current
node, record the longer sequence; then follow an exact edge, or resolve
the next word by the approximate search when budget remains (a TypeError
when it yields nothing), or break.  inl is loop exit (break or end of
sentence), inr continues. -/
def extractInnerStep (nwb wsp sent : List Char) (n levFuel : Nat)
    (s0 : ExtInner) : Except JsErr (Sum ExtInner ExtInner) :=
  if s0.idy < n then
    let ic := sent.getD s0.idy (Char.ofNat 0)
    let s :=
      if ¬ nwb.contains ic ∧ labelTruthy (vgetLabel s0.cdc) then
        { s0 with lsf := vgetLabel s0.cdc, seqEnd := s0.idy,
                  isLonger := true }
      else s0
    if vhas s.cdc (.ch ic) then
      .ok (.inr { s with cdc := (vget s.cdc (.ch ic)).getD (.map []),
                         idy := s.idy + 1 })
    else if 0 < s.currCost then
      let nextWord := getNextWord nwb (sent.drop s.idy)
      match levFirst wsp nextWord s.currCost levFuel s.cdc with
      | none => .error .typeError
      | some (nd, cost, _) =>
          .ok (.inr { s with cdc := nd, currCost := s.currCost - cost,
                             idy := s.idy + nextWord.length - 1 + 1 })
    else .ok (.inl s)
  else .ok (.inl s0)

/-- The inner extension loop of extractKeywords: iterates
extractInnerStep on fuel. -/
def extractInner (nwb wsp sent : List Char) (n levFuel : Nat) :
    Nat → ExtInner → Except JsErr ExtInner
  | 0, _ => .error .outOfFuel
  | fuel + 1, s =>
      match extractInnerStep nwb wsp sent n levFuel s with
      | .error e => .error e
      | .ok (.inl d) => .ok d
      | .ok (.inr s') => extractInner nwb wsp sent n levFuel fuel s'

/-- Loop state of the outer while (idx < sentenceLen) loop of
extractKeywords: idx, currentDict, sequenceStartPos, sequenceEndPos,
currCost and the keywordsExtracted accumulator. -/
structure ExtState where
  idx : Nat
  cd : TrieVal
  seqStart : Nat
  seqEnd : Nat
  currCost : Nat
  acc : List (String × Nat × Nat)
deriving Repr, DecidableEq

/-- End of one outer iteration of extractKeywords (source lines 660-671):
the end-of-sentence push when the next index reaches the sentence length
and the current node is terminal, then idx++ and, when resetCurrentDict
was set, sequenceStartPos := idx. -/
def extractTail (n seqStart : Nat) (reset : Bool) (idx1 : Nat)
    (cd1 : TrieVal) (seqEnd1 currCost1 : Nat)
    (acc1 : List (String × Nat × Nat)) : ExtState :=
  let acc2 :=
    if idx1 + 1 ≥ n ∧ vhas cd1 .kw then
      acc1 ++ [((vgetLabel cd1).getD "", seqStart, n)]
    else acc1
  { idx := idx1 + 1, cd := cd1,
    seqStart := if reset then idx1 + 1 else seqStart,
    seqEnd := seqEnd1, currCost := currCost1, acc := acc2 }

/-- Conclusion of the boundary branch of extractKeywords (source lines
603-615): currentDict is reset to the root and, when the longest sequence
found is truthy, a (label, sequenceStartPos, idx) record is pushed and the
budget is reset to maxCost. -/
def extractEmit (root : TrieVal) (maxCost n : Nat) (s : ExtState)
    (lsf : Option String) (seqEnd1 idx1 currCost1 : Nat) : ExtState :=
  if labelTruthy lsf then
    extractTail n s.seqStart true idx1 root seqEnd1 maxCost
      (s.acc ++ [(lsf.getD "", s.seqStart, idx1)])
  else extractTail n s.seqStart true idx1 root seqEnd1 currCost1 s.acc

/-- Entry state of the inner extension loop (source lines 528-541):
longestSequenceFound and sequenceEndPos are primed from the terminal
marker of the current node when present, and the walk continues from the
child under the boundary character at idy = idx + 1. -/
def extractInit (s : ExtState) (char : Char) : ExtInner :=
  { idy := s.idx + 1, cdc := (vget s.cd (.ch char)).getD (.map []),
    lsf := if vhas s.cd .kw then vgetLabel s.cd else none,
    seqEnd := if vhas s.cd .kw then s.idx else s.seqEnd,
    isLonger := false, currCost := s.currCost }

/-- Post-processing of the inner loop result (source lines 587-601): a
terminal marker at the final node updates the longest sequence once more
(Map.has, so an empty-string label also moves sequenceEndPos), and when a
longer sequence was found idx jumps to sequenceEndPos; then the emission. -/
def extractAfterInner (root : TrieVal) (maxCost n : Nat) (s : ExtState)
    (res : Except JsErr ExtInner) :
    Except JsErr (Sum (List (String × Nat × Nat)) ExtState) :=
  match res with
  | .error e => .error e
  | .ok r0 =>
      let r :=
        if vhas r0.cdc .kw then
          { r0 with lsf := vgetLabel r0.cdc, seqEnd := r0.idy,
                    isLonger := true }
        else r0
      .ok (.inr (extractEmit root maxCost n s r.lsf r.seqEnd
        (if r.isLonger then r.seqEnd else s.idx) r.currCost))

/-- One pass of the outer loop of extractKeywords (source lines 521-672),
inl being loop exit with the accumulated records.  Branches in source
order: boundary character with a terminal marker or an edge (extension
attempt and emission), boundary character otherwise (reset), exact edge,
approximate fallback when budget remains (a TypeError when the search
yields nothing), and reset-and-skip-word. -/
def extractStep (nwb wsp : List Char) (root : TrieVal) (maxCost : Nat)
    (sent : List Char) (n levFuel innerFuel : Nat) (s : ExtState) :
    Except JsErr (Sum (List (String × Nat × Nat)) ExtState) :=
  if s.idx < n then
    let char := sent.getD s.idx (Char.ofNat 0)
    if ¬ nwb.contains char then
      if vhas s.cd .kw ∨ vhas s.cd (.ch char) then
        if vhas s.cd (.ch char) then
          extractAfterInner root maxCost n s
            (extractInner nwb wsp sent n levFuel innerFuel
              (extractInit s char))
        else
          .ok (.inr (extractEmit root maxCost n s
            (if vhas s.cd .kw then vgetLabel s.cd else none)
            (if vhas s.cd .kw then s.idx else s.seqEnd) s.idx s.currCost))
      else
        .ok (.inr (extractTail n s.seqStart true s.idx root s.seqEnd
          s.currCost s.acc))
    else if vhas s.cd (.ch char) then
      .ok (.inr (extractTail n s.seqStart false s.idx
        ((vget s.cd (.ch char)).getD (.map [])) s.seqEnd s.currCost s.acc))
    else if 0 < s.currCost then
      let nextWord := getNextWord nwb (sent.drop s.idx)
      match levFirst wsp nextWord s.currCost levFuel s.cd with
      | none => .error .typeError
      | some (nd, cost, _) =>
          .ok (.inr (extractTail n s.seqStart false
            (s.idx + nextWord.length - 1) nd s.seqEnd
            (s.currCost - cost) s.acc))
    else
      .ok (.inr (extractTail n s.seqStart true
        (s.idx + 1 + (getNextWord nwb (sent.drop (s.idx + 1))).length)
        root s.seqEnd s.currCost s.acc))
  else .ok (.inl s.acc)

/-- The outer loop of extractKeywords: iterates extractStep on fuel. -/
def extractLoop (nwb wsp : List Char) (root : TrieVal) (maxCost : Nat)
    (sent : List Char) (n levFuel innerFuel : Nat) :
    Nat → ExtState → Except JsErr (List (String × Nat × Nat))
  | 0, _ => .error .outOfFuel
  | fuel + 1, s =>
      match extractStep nwb wsp root maxCost sent n levFuel innerFuel s with
      | .error e => .error e
      | .ok (.inl r) => .ok r
      | .ok (.inr s') =>
          extractLoop nwb wsp root maxCost sent n levFuel innerFuel fuel s'

/-- Result shaping of extractKeywords (source lines 674-678): with
spanInfo the (label, start, end) records, otherwise the labels only. -/
def extractOut (spanInfo : Bool) :
    Except JsErr (List (String × Nat × Nat)) → Except JsErr ExtractOut
  | .error e => .error e
  | .ok ms => .ok (if spanInfo then .spans ms else .labels (ms.map (·.1)))

/-- FlashText#extractKeywords: empty sentence yields the empty list;
otherwise the sentence is normalized and scanned once; with spanInfo the
(label, start, end) records are returned, otherwise the labels. -/
def extractKeywords (st : FlashText) (sentence : String) (spanInfo : Bool)
    (maxCost : Nat) : Except JsErr ExtractOut :=
  if sentence = "" then .ok (if spanInfo then .spans [] else .labels [])
  else
    let sentN := normWord st sentence.data
    let n := sentN.length
    let fuel := n + trieSize st.keywordTrieDict + 2
    extractOut spanInfo
      (extractLoop st.nonWordBoundaries st.whiteSpaceChars
        st.keywordTrieDict maxCost sentN n fuel fuel fuel
        { idx := 0, cd := st.keywordTrieDict, seqStart := 0, seqEnd := 0,
          currCost := maxCost, acc := [] })

/-- Loop state of the inner extension loop of replaceKeywords:
idy, currentDictContinued, currentWordContinued (original casing),
currentWhiteSpace, longestSequenceFound, sequenceEndPos, isLongerSeqFound
and currCost. -/
structure RepInner where
  idy : Nat
  cdc : TrieVal
  cwc : List Char
  cws : List Char
  lsf : Option String
  seqEnd : Nat
  isLonger : Bool
  currCost : Nat
deriving Repr, DecidableEq

/-- One pass of the inner extension loop of replaceKeywords (source lines
745-787).  It differs from the extract version: the longer-sequence test
uses Map.has of the sentinel (not truthiness), the consumed
original-casing text is accumulated, and the word handed to the
approximate search is taken from the original (un-normalized) sentence. -/
def replaceInnerStep (nwb wsp sentN sentO : List Char) (n levFuel : Nat)
    (s0 : RepInner) : Except JsErr (Sum RepInner RepInner) :=
  if s0.idy < n then
    let ic := sentN.getD s0.idy (Char.ofNat 0)
    let oc := sentO.getD s0.idy (Char.ofNat 0)
    let s :=
      if ¬ nwb.contains ic ∧ vhas s0.cdc .kw then
        { s0 with cwc := s0.cwc ++ [oc], cws := [ic],
                  lsf := vgetLabel s0.cdc, seqEnd := s0.idy,
                  isLonger := true }
      else s0
    if vhas s.cdc (.ch ic) then
      .ok (.inr { s with cwc := s.cwc ++ [oc],
                         cdc := (vget s.cdc (.ch ic)).getD (.map []),
                         idy := s.idy + 1 })
    else if 0 < s.currCost then
      let nextWord := getNextWord nwb (sentO.drop s.idy)
      match levFirst wsp nextWord s.currCost levFuel s.cdc with
      | none => .error .typeError
      | some (nd, cost, _) =>
          .ok (.inr { s with cdc := nd,
                             idy := s.idy + nextWord.length - 1 + 1,
                             currCost := s.currCost - cost,
                             cwc := s.cwc ++ nextWord })
    else .ok (.inl s)
  else .ok (.inl s0)

/-- The inner extension loop of replaceKeywords: iterates
replaceInnerStep on fuel. -/
def replaceInner (nwb wsp sentN sentO : List Char) (n levFuel : Nat) :
    Nat → RepInner → Except JsErr RepInner
  | 0, _ => .error .outOfFuel
  | fuel + 1, s =>
      match replaceInnerStep nwb wsp sentN sentO n levFuel s with
      | .error e => .error e
      | .ok (.inl d) => .ok d
      | .ok (.inr s') => replaceInner nwb wsp sentN sentO n levFuel fuel s'

/-- The skip-to-end-of-word loop of replaceKeywords (source lines
840-851): starting after idx it appends one original character per step,
stopping right at the first boundary character (which is still appended)
or at the end of the sentence.  Returns the appended characters and the
number of steps, so the final idy is the start position plus the step
count. -/
def replSkip (nwb : List Char) : List Char → List Char → List Char × Nat
  | [], _ => ([], 0)
  | _ :: _, [] => ([], 0)
  | nc :: ncs, oc :: ocs =>
      if ¬ nwb.contains nc then ([oc], 0)
      else
        let r := replSkip nwb ncs ocs
        (oc :: r.1, r.2 + 1)

/-- Loop state of the outer loop of replaceKeywords: idx, currentDict,
currentWord, currentWhiteSpace, sequenceEndPos, currCost and the
accumulated newSentencePieces. -/
structure RepState where
  idx : Nat
  cd : TrieVal
  cw : List Char
  cws : List Char
  seqEnd : Nat
  currCost : Nat
  pieces : List (List Char)
deriving Repr, DecidableEq

/-- End of one outer iteration of replaceKeywords (source lines 859-868):
when the next index reaches the sentence length, push the matched label if
the current node is terminal, the pending word otherwise; then idx++. -/
def replaceTail (n : Nat) (idx1 : Nat) (cd1 : TrieVal)
    (cw1 cws1 : List Char) (seqEnd1 currCost1 : Nat)
    (pieces1 : List (List Char)) : RepState :=
  let pieces2 :=
    if idx1 + 1 ≥ n then
      if vhas cd1 .kw then pieces1 ++ [((vgetLabel cd1).getD "").data]
      else pieces1 ++ [cw1]
    else pieces1
  { idx := idx1 + 1, cd := cd1, cw := cw1, cws := cws1,
    seqEnd := seqEnd1, currCost := currCost1, pieces := pieces2 }

/-- Conclusion of the boundary branch of replaceKeywords (source lines
795-806): currentDict is reset to the root; a truthy longest sequence
resets the budget and pushes label + currentWhiteSpace, otherwise the
pending word is pushed; currentWord and currentWhiteSpace are cleared. -/
def replaceEmit (root : TrieVal) (maxCost n : Nat) (s : RepState)
    (lsf : Option String) (cw2 cws2 : List Char)
    (seqEnd2 idx2 currCost2 : Nat) : RepState :=
  if labelTruthy lsf then
    replaceTail n idx2 root [] [] seqEnd2 maxCost
      (s.pieces ++ [(lsf.getD "").data ++ cws2])
  else
    replaceTail n idx2 root [] [] seqEnd2 currCost2 (s.pieces ++ [cw2])

/-- Entry state of the inner extension loop of replaceKeywords (source
lines 726-743). -/
def replaceInit (s : RepState) (char oc : Char) : RepInner :=
  { idy := s.idx + 1, cdc := (vget s.cd (.ch char)).getD (.map []),
    cwc := s.cw ++ [oc], cws := [char],
    lsf := if vhas s.cd .kw then vgetLabel s.cd else none,
    seqEnd := if vhas s.cd .kw then s.idx else s.seqEnd,
    isLonger := false, currCost := s.currCost }

/-- Post-processing of the inner loop result of replaceKeywords (source
lines 789-793): when a longer sequence was found, idx jumps to
sequenceEndPos and currentWord becomes currentWordContinued; then the
emission. -/
def replaceAfterInner (root : TrieVal) (maxCost n : Nat) (s : RepState)
    (cw1 : List Char) (res : Except JsErr RepInner) :
    Except JsErr (Sum (List (List Char)) RepState) :=
  match res with
  | .error e => .error e
  | .ok r =>
      if r.isLonger then
        .ok (.inr (replaceEmit root maxCost n s r.lsf r.cwc r.cws r.seqEnd
          r.seqEnd r.currCost))
      else
        .ok (.inr (replaceEmit root maxCost n s r.lsf cw1 r.cws r.seqEnd
          s.idx r.currCost))

/-- One pass of the outer loop of replaceKeywords (source lines 717-869),
inl being loop exit with the accumulated pieces.  Branches in source
order: boundary character (verbatim append, then extension attempt and
emission, or flush), exact edge, approximate fallback when budget remains
(a TypeError when the search yields nothing), and skip-to-end-of-word
with flush. -/
def replaceStep (nwb wsp : List Char) (root : TrieVal) (csFlag : Bool)
    (maxCost : Nat) (sentN sentO : List Char) (n levFuel innerFuel : Nat)
    (s : RepState) : Except JsErr (Sum (List (List Char)) RepState) :=
  if s.idx < n then
    let char := sentN.getD s.idx (Char.ofNat 0)
    let oc := sentO.getD s.idx (Char.ofNat 0)
    if ¬ nwb.contains char then
      let cw1 := s.cw ++ [oc]
      let cws1 := [char]
      if vhas s.cd .kw ∨ vhas s.cd (.ch char) then
        if vhas s.cd (.ch char) then
          replaceAfterInner root maxCost n s cw1
            (replaceInner nwb wsp sentN sentO n levFuel innerFuel
              (replaceInit s char oc))
        else
          .ok (.inr (replaceEmit root maxCost n s
            (if vhas s.cd .kw then vgetLabel s.cd else none) cw1 cws1
            (if vhas s.cd .kw then s.idx else s.seqEnd) s.idx s.currCost))
      else
        .ok (.inr (replaceTail n s.idx root [] [] s.seqEnd s.currCost
          (s.pieces ++ [cw1])))
    else if vhas s.cd (.ch char) then
      .ok (.inr (replaceTail n s.idx ((vget s.cd (.ch char)).getD (.map []))
        (s.cw ++ [oc]) s.cws s.seqEnd s.currCost s.pieces))
    else if 0 < s.currCost then
      let nextOrigWord := getNextWord nwb (sentO.drop s.idx)
      let nextWord :=
        if csFlag then nextOrigWord else nextOrigWord.map Char.toLower
      match levFirst wsp nextWord s.currCost levFuel s.cd with
      | none => .error .typeError
      | some (nd, cost, _) =>
          .ok (.inr (replaceTail n (s.idx + nextWord.length - 1) nd
            (s.cw ++ nextOrigWord) s.cws s.seqEnd (s.currCost - cost)
            s.pieces))
    else
      let r := replSkip nwb (sentN.drop (s.idx + 1)) (sentO.drop (s.idx + 1))
      .ok (.inr (replaceTail n (s.idx + 1 + r.2) root [] [] s.seqEnd
        s.currCost (s.pieces ++ [s.cw ++ [oc] ++ r.1])))
  else .ok (.inl s.pieces)

/-- The outer loop of replaceKeywords: iterates replaceStep on fuel. -/
def replaceLoop (nwb wsp : List Char) (root : TrieVal) (csFlag : Bool)
    (maxCost : Nat) (sentN sentO : List Char) (n levFuel innerFuel : Nat) :
    Nat → RepState → Except JsErr (List (List Char))
  | 0, _ => .error .outOfFuel
  | fuel + 1, s =>
      match replaceStep nwb wsp root csFlag maxCost sentN sentO n levFuel
          innerFuel s with
      | .error e => .error e
      | .ok (.inl r) => .ok r
      | .ok (.inr s') =>
          replaceLoop nwb wsp root csFlag maxCost sentN sentO n levFuel
            innerFuel fuel s'

/-- FlashText#replaceKeywords: empty sentence returned unchanged;
otherwise the normalized copy is scanned while original-casing text is
accumulated, and the joined pieces are returned. -/
def replaceKeywords (st : FlashText) (sentence : String) (maxCost : Nat) :
    Except JsErr String :=
  if sentence = "" then .ok sentence
  else
    let sentO := sentence.data
    let sentN := normWord st sentO
    let n := sentN.length
    let fuel := n + trieSize st.keywordTrieDict + 2
    match
      replaceLoop st.nonWordBoundaries st.whiteSpaceChars
        st.keywordTrieDict st.caseSensitive maxCost sentN sentO n fuel fuel
        fuel
        { idx := 0, cd := st.keywordTrieDict, cw := [], cws := [],
          seqEnd := 0, currCost := maxCost, pieces := [] } with
    | .error e => .error e
    | .ok pieces => .ok (String.mk pieces.flatten)

/-- FlashText#length: the termsInTrie counter. -/
def length (st : FlashText) : Int :=
  st.termsInTrie

/-- extractKeywords as a state transformer.  The method body reads
this._caseSensitive, this._nonWordBoundaries, this._whiteSpaceChars,
this._keyword and this._keywordTrieDict and assigns no field; every Map
operation it performs (has, get, keys, iteration) is a read, so its
state-transformer semantics returns the receiver unchanged. -/
def extractKeywordsSt (st : FlashText) (sentence : String) (spanInfo : Bool)
    (maxCost : Nat) : Except JsErr ExtractOut × FlashText :=
  (extractKeywords st sentence spanInfo maxCost, st)

/-- replaceKeywords as a state transformer; like extractKeywordsSt, the
method body assigns no field and performs only Map reads. -/
def replaceKeywordsSt (st : FlashText) (sentence : String) (maxCost : Nat) :
    Except JsErr String × FlashText :=
  (replaceKeywords st sentence maxCost, st)

instance {ε α : Type} [DecidableEq ε] [DecidableEq α] :
    DecidableEq (Except ε α) := fun a b =>
  match a, b with
  | .error x, .error y => decidable_of_iff (x = y) (by simp)
  | .ok x, .ok y => decidable_of_iff (x = y) (by simp)
  | .error _, .ok _ => isFalse (by simp)
  | .ok _, .error _ => isFalse (by simp)

/-- Trie node of the kw2Store trie (see kw2Store). -/
def kwNode0 : TrieVal :=
  TrieVal.map [(TKey.kw, TrieVal.str "keyword with many words")]

/-- Trie node of the kw2Store trie (see kw2Store). -/
def kwNode1 : TrieVal :=
  TrieVal.map [(TKey.ch 's', kwNode0)]

/-- Trie node of the kw2Store trie (see kw2Store). -/
def kwNode2 : TrieVal :=
  TrieVal.map [(TKey.ch 'd', kwNode1)]

/-- Trie node of the kw2Store trie (see kw2Store). -/
def kwNode3 : TrieVal :=
  TrieVal.map [(TKey.ch 'r', kwNode2)]

/-- Trie node of the kw2Store trie (see kw2Store). -/
def kwNode4 : TrieVal :=
  TrieVal.map [(TKey.ch 'o', kwNode3)]

/-- Trie node of the kw2Store trie (see kw2Store). -/
def kwNode5 : TrieVal :=
  TrieVal.map [(TKey.ch 'w', kwNode4)]

/-- Trie node of the kw2Store trie (see kw2Store). -/
def kwNode6 : TrieVal :=
  TrieVal.map [(TKey.ch ' ', kwNode5)]

/-- Trie node of the kw2Store trie (see kw2Store). -/
def kwNode7 : TrieVal :=
  TrieVal.map [(TKey.ch 'y', kwNode6)]

/-- Trie node of the kw2Store trie (see kw2Store). -/
def kwNode8 : TrieVal :=
  TrieVal.map [(TKey.ch 'n', kwNode7)]

/-- Trie node of the kw2Store trie (see kw2Store). -/
def kwNode9 : TrieVal :=
  TrieVal.map [(TKey.ch 'a', kwNode8)]

/-- Trie node of the kw2Store trie (see kw2Store). -/
def kwNode10 : TrieVal :=
  TrieVal.map [(TKey.ch 'm', kwNode9)]

/-- Trie node of the kw2Store trie (see kw2Store). -/
def kwNode11 : TrieVal :=
  TrieVal.map [(TKey.ch ' ', kwNode10)]

/-- Trie node of the kw2Store trie (see kw2Store). -/
def kwNode12 : TrieVal :=
  TrieVal.map [(TKey.ch 'h', kwNode11)]

/-- Trie node of the kw2Store trie (see kw2Store). -/
def kwNode13 : TrieVal :=
  TrieVal.map [(TKey.ch 't', kwNode12)]

/-- Trie node of the kw2Store trie (see kw2Store). -/
def kwNode14 : TrieVal :=
  TrieVal.map [(TKey.ch 'i', kwNode13)]

/-- Trie node of the kw2Store trie (see kw2Store). -/
def kwNode15 : TrieVal :=
  TrieVal.map [(TKey.ch 'w', kwNode14)]

/-- Trie node of the kw2Store trie (see kw2Store). -/
def kwNode16 : TrieVal :=
  TrieVal.map [(TKey.kw, TrieVal.str "keyword"), (TKey.ch ' ', kwNode15)]

/-- Trie node of the kw2Store trie (see kw2Store). -/
def kwNode17 : TrieVal :=
  TrieVal.map [(TKey.ch 'd', kwNode16)]

/-- Trie node of the kw2Store trie (see kw2Store). -/
def kwNode18 : TrieVal :=
  TrieVal.map [(TKey.ch 'r', kwNode17)]

/-- Trie node of the kw2Store trie (see kw2Store). -/
def kwNode19 : TrieVal :=
  TrieVal.map [(TKey.ch 'o', kwNode18)]

/-- Trie node of the kw2Store trie (see kw2Store). -/
def kwNode20 : TrieVal :=
  TrieVal.map [(TKey.ch 'w', kwNode19)]

/-- Trie node of the kw2Store trie (see kw2Store). -/
def kwNode21 : TrieVal :=
  TrieVal.map [(TKey.ch 'y', kwNode20)]

/-- Trie node of the kw2Store trie (see kw2Store). -/
def kwNode22 : TrieVal :=
  TrieVal.map [(TKey.ch 'e', kwNode21)]

/-- Trie node of the kw2Store trie (see kw2Store). -/
def kwNode23 : TrieVal :=
  TrieVal.map [(TKey.ch 'k', kwNode22)]

/-- Store with the two keywords of the longest-match-with-budget scenario
(its trie evaluates to kwNode23). -/
def kw2Store : FlashText :=
  (addKeyword (addKeyword (mkFlashText false) "keyword" none).2
    "keyword with many words" none).2

/-- Non-word-boundary set of kw2Store. -/
def kw2Nwb : List Char :=
  kw2Store.nonWordBoundaries

/-- Whitespace set of kw2Store. -/
def kw2Wsp : List Char :=
  kw2Store.whiteSpaceChars

/-- The scanned sentence of the scenario, normalized. -/
def kw2Sent : List Char :=
  normWord kw2Store "keywrd with many woords".data

/-- Store of the fuzzy-span scenario: case-insensitive, one keyword
Telegram with clean name Messenger. -/
def telegramStore : FlashText :=
  (addKeyword (mkFlashText false) "Telegram" (some "Messenger")).2

/-- Store of the round-trip counterexample: case-insensitive, one keyword
JS with clean name Javascript. -/
def jsStore : FlashText :=
  (addKeyword (mkFlashText false) "JS" (some "Javascript")).2

/-- Store of the identity-label round trip: case-insensitive, keywords ab
and cd with defaulted clean names. -/
def identStore : FlashText :=
  (addKeyword (addKeyword (mkFlashText false) "ab" none).2 "cd" none).2

mutual
/-- Well-formed trie value: every node's keys are pairwise distinct, as
they are in a JS Map (the association-list model allows duplicates that a
Map cannot have). -/
inductive WFV : TrieVal → Prop where
  | str (s : String) : WFV (.str s)
  | map {es : Entries} : WFE es → WFV (.map es)

/-- Well-formed entry list, see WFV. -/
inductive WFE : Entries → Prop where
  | nil : WFE []
  | cons {k : TKey} {v : TrieVal} {es : Entries} :
      mget es k = none → WFV v → WFE es → WFE ((k, v) :: es)
end

/-- Store with the shared-prefix keywords cat and car; used to exercise
the deletion theorem on a concrete store. -/
def catcarStore : FlashText :=
  (addKeyword (addKeyword (mkFlashText false) "cat" none).2 "car" none).2

/-- Unfolding lemma: a continuing pass of the inner extraction loop. -/
theorem extractInner_more (nwb wsp sent : List Char) (n levFuel fuel : Nat)
    (s s' : ExtInner)
    (h : extractInnerStep nwb wsp sent n levFuel s = .ok (.inr s')) :
    extractInner nwb wsp sent n levFuel (fuel + 1) s =
      extractInner nwb wsp sent n levFuel fuel s' := by
  rw [extractInner, h]

/-- Unfolding lemma: a terminating pass of the inner extraction loop. -/
theorem extractInner_done (nwb wsp sent : List Char) (n levFuel fuel : Nat)
    (s d : ExtInner)
    (h : extractInnerStep nwb wsp sent n levFuel s = .ok (.inl d)) :
    extractInner nwb wsp sent n levFuel (fuel + 1) s = .ok d := by
  rw [extractInner, h]

/-- Unfolding lemma: a continuing pass of the outer extraction loop. -/
theorem extractLoop_more (nwb wsp : List Char) (root : TrieVal)
    (maxCost : Nat) (sent : List Char) (n levFuel innerFuel fuel : Nat)
    (s s' : ExtState)
    (h : extractStep nwb wsp root maxCost sent n levFuel innerFuel s =
      .ok (.inr s')) :
    extractLoop nwb wsp root maxCost sent n levFuel innerFuel (fuel + 1) s =
      extractLoop nwb wsp root maxCost sent n levFuel innerFuel fuel s' := by
  rw [extractLoop, h]

/-- Unfolding lemma: the final pass of the outer extraction loop. -/
theorem extractLoop_done (nwb wsp : List Char) (root : TrieVal)
    (maxCost : Nat) (sent : List Char) (n levFuel innerFuel fuel : Nat)
    (s : ExtState) (r : List (String × Nat × Nat))
    (h : extractStep nwb wsp root maxCost sent n levFuel innerFuel s =
      .ok (.inl r)) :
    extractLoop nwb wsp root maxCost sent n levFuel innerFuel (fuel + 1) s =
      .ok r := by
  rw [extractLoop, h]

/-- Unfolding lemma: a throwing pass of the outer extraction loop. -/
theorem extractLoop_err (nwb wsp : List Char) (root : TrieVal)
    (maxCost : Nat) (sent : List Char) (n levFuel innerFuel fuel : Nat)
    (s : ExtState) (e : JsErr)
    (h : extractStep nwb wsp root maxCost sent n levFuel innerFuel s =
      .error e) :
    extractLoop nwb wsp root maxCost sent n levFuel innerFuel (fuel + 1) s =
      .error e := by
  rw [extractLoop, h]

/-- The boundary branch of extractStep with an outgoing edge for the
boundary character: the pass is the inner extension loop started from
extractInit followed by extractAfterInner. -/
theorem extractStep_boundary (nwb wsp : List Char) (root : TrieVal)
    (maxCost : Nat) (sent : List Char) (n levFuel innerFuel : Nat)
    (s : ExtState) (i0 r : ExtInner)
    (out : Except JsErr (Sum (List (String × Nat × Nat)) ExtState))
    (h1 : s.idx < n)
    (h2 : nwb.contains (sent.getD s.idx (Char.ofNat 0)) = false)
    (h3 : vhas s.cd (.ch (sent.getD s.idx (Char.ofNat 0))) = true)
    (hinit : extractInit s (sent.getD s.idx (Char.ofNat 0)) = i0)
    (hrun : extractInner nwb wsp sent n levFuel innerFuel i0 = .ok r)
    (hafter : extractAfterInner root maxCost n s (.ok r) = out) :
    extractStep nwb wsp root maxCost sent n levFuel innerFuel s = out := by
  unfold extractStep
  rw [if_pos h1]
  simp at h2 h3 hinit
  simp [h2, h3]
  rw [hinit, hrun, hafter]
/-- C2: with both "keyword" and "keyword with many words" stored,
extractKeywords on "keywrd with many woords" returns the longer label at
maxCost 2; at maxCost 1 the code throws a TypeError (the claim expects the
shorter label): after the shorter match is emitted and the budget is reset
to 1, the approximate search for "with" from the root yields nothing and
.next().value is destructured without a default. -/
theorem C2_budget_behavior :
    extractKeywords kw2Store "keywrd with many woords" false 2 =
      .ok (.labels ["keyword with many words"]) ∧
    extractKeywords kw2Store "keywrd with many woords" false 1 =
      .error .typeError := by
  constructor
  case left =>
    have i2_0 : extractInnerStep kw2Nwb kw2Wsp kw2Sent 23 76
        (⟨7, kwNode15, some "keyword", 6, false, 1⟩) =
        .ok (.inr (⟨8, kwNode14, some "keyword", 6, false, 1⟩)) := by decide
    have i2_1 : extractInnerStep kw2Nwb kw2Wsp kw2Sent 23 76
        (⟨8, kwNode14, some "keyword", 6, false, 1⟩) =
        .ok (.inr (⟨9, kwNode13, some "keyword", 6, false, 1⟩)) := by decide
    have i2_2 : extractInnerStep kw2Nwb kw2Wsp kw2Sent 23 76
        (⟨9, kwNode13, some "keyword", 6, false, 1⟩) =
        .ok (.inr (⟨10, kwNode12, some "keyword", 6, false, 1⟩)) := by decide
    have i2_3 : extractInnerStep kw2Nwb kw2Wsp kw2Sent 23 76
        (⟨10, kwNode12, some "keyword", 6, false, 1⟩) =
        .ok (.inr (⟨11, kwNode11, some "keyword", 6, false, 1⟩)) := by decide
    have i2_4 : extractInnerStep kw2Nwb kw2Wsp kw2Sent 23 76
        (⟨11, kwNode11, some "keyword", 6, false, 1⟩) =
        .ok (.inr (⟨12, kwNode10, some "keyword", 6, false, 1⟩)) := by decide
    have i2_5 : extractInnerStep kw2Nwb kw2Wsp kw2Sent 23 76
        (⟨12, kwNode10, some "keyword", 6, false, 1⟩) =
        .ok (.inr (⟨13, kwNode9, some "keyword", 6, false, 1⟩)) := by decide
    have i2_6 : extractInnerStep kw2Nwb kw2Wsp kw2Sent 23 76
        (⟨13, kwNode9, some "keyword", 6, false, 1⟩) =
        .ok (.inr (⟨14, kwNode8, some "keyword", 6, false, 1⟩)) := by decide
    have i2_7 : extractInnerStep kw2Nwb kw2Wsp kw2Sent 23 76
        (⟨14, kwNode8, some "keyword", 6, false, 1⟩) =
        .ok (.inr (⟨15, kwNode7, some "keyword", 6, false, 1⟩)) := by decide
    have i2_8 : extractInnerStep kw2Nwb kw2Wsp kw2Sent 23 76
        (⟨15, kwNode7, some "keyword", 6, false, 1⟩) =
        .ok (.inr (⟨16, kwNode6, some "keyword", 6, false, 1⟩)) := by decide
    have i2_9 : extractInnerStep kw2Nwb kw2Wsp kw2Sent 23 76
        (⟨16, kwNode6, some "keyword", 6, false, 1⟩) =
        .ok (.inr (⟨17, kwNode5, some "keyword", 6, false, 1⟩)) := by decide
    have i2_10 : extractInnerStep kw2Nwb kw2Wsp kw2Sent 23 76
        (⟨17, kwNode5, some "keyword", 6, false, 1⟩) =
        .ok (.inr (⟨18, kwNode4, some "keyword", 6, false, 1⟩)) := by decide
    have i2_11 : extractInnerStep kw2Nwb kw2Wsp kw2Sent 23 76
        (⟨18, kwNode4, some "keyword", 6, false, 1⟩) =
        .ok (.inr (⟨19, kwNode3, some "keyword", 6, false, 1⟩)) := by decide
    have i2_12 : extractInnerStep kw2Nwb kw2Wsp kw2Sent 23 76
        (⟨19, kwNode3, some "keyword", 6, false, 1⟩) =
        .ok (.inr (⟨23, kwNode0, some "keyword", 6, false, 0⟩)) := by decide
    have i2_13 : extractInnerStep kw2Nwb kw2Wsp kw2Sent 23 76
        (⟨23, kwNode0, some "keyword", 6, false, 0⟩) =
        .ok (.inl (⟨23, kwNode0, some "keyword", 6, false, 0⟩)) := by decide
    have inn2 : extractInner kw2Nwb kw2Wsp kw2Sent 23 76 76
        (⟨7, kwNode15, some "keyword", 6, false, 1⟩) =
        .ok (⟨23, kwNode0, some "keyword", 6, false, 0⟩) :=
      ((extractInner_more _ _ _ _ _ 75 _ _ i2_0).trans
      ((extractInner_more _ _ _ _ _ 74 _ _ i2_1).trans
      ((extractInner_more _ _ _ _ _ 73 _ _ i2_2).trans
      ((extractInner_more _ _ _ _ _ 72 _ _ i2_3).trans
      ((extractInner_more _ _ _ _ _ 71 _ _ i2_4).trans
      ((extractInner_more _ _ _ _ _ 70 _ _ i2_5).trans
      ((extractInner_more _ _ _ _ _ 69 _ _ i2_6).trans
      ((extractInner_more _ _ _ _ _ 68 _ _ i2_7).trans
      ((extractInner_more _ _ _ _ _ 67 _ _ i2_8).trans
      ((extractInner_more _ _ _ _ _ 66 _ _ i2_9).trans
      ((extractInner_more _ _ _ _ _ 65 _ _ i2_10).trans
      ((extractInner_more _ _ _ _ _ 64 _ _ i2_11).trans
      ((extractInner_more _ _ _ _ _ 63 _ _ i2_12).trans
      (extractInner_done _ _ _ _ _ 62 _ _ i2_13))))))))))))))
    have o2_0 : extractStep kw2Nwb kw2Wsp kwNode23 2 kw2Sent 23 76 76
        (⟨0, kwNode23, 0, 0, 2, []⟩) =
        .ok (.inr (⟨1, kwNode22, 0, 0, 2, []⟩)) := by decide
    have o2_1 : extractStep kw2Nwb kw2Wsp kwNode23 2 kw2Sent 23 76 76
        (⟨1, kwNode22, 0, 0, 2, []⟩) =
        .ok (.inr (⟨2, kwNode21, 0, 0, 2, []⟩)) := by decide
    have o2_2 : extractStep kw2Nwb kw2Wsp kwNode23 2 kw2Sent 23 76 76
        (⟨2, kwNode21, 0, 0, 2, []⟩) =
        .ok (.inr (⟨3, kwNode20, 0, 0, 2, []⟩)) := by decide
    have o2_3 : extractStep kw2Nwb kw2Wsp kwNode23 2 kw2Sent 23 76 76
        (⟨3, kwNode20, 0, 0, 2, []⟩) =
        .ok (.inr (⟨4, kwNode19, 0, 0, 2, []⟩)) := by decide
    have o2_4 : extractStep kw2Nwb kw2Wsp kwNode23 2 kw2Sent 23 76 76
        (⟨4, kwNode19, 0, 0, 2, []⟩) =
        .ok (.inr (⟨6, kwNode16, 0, 0, 1, []⟩)) := by decide
    have o2_5 : extractStep kw2Nwb kw2Wsp kwNode23 2 kw2Sent 23 76 76
        (⟨6, kwNode16, 0, 0, 1, []⟩) =
        .ok (.inr (⟨24, kwNode23, 24, 23, 2, [("keyword with many words", 0, 23)]⟩)) :=
      extractStep_boundary _ _ _ _ _ _ _ _ _ _ _ _
        (by decide) (by decide) (by decide) (by decide) inn2 (by decide)
    have o2_6 : extractStep kw2Nwb kw2Wsp kwNode23 2 kw2Sent 23 76 76
        (⟨24, kwNode23, 24, 23, 2, [("keyword with many words", 0, 23)]⟩) =
        .ok (.inl ([("keyword with many words", 0, 23)])) := by decide
    have loop2 : extractLoop kw2Nwb kw2Wsp kwNode23 2 kw2Sent 23 76 76 76
        (⟨0, kwNode23, 0, 0, 2, []⟩) =
        .ok ([("keyword with many words", 0, 23)]) :=
      ((extractLoop_more _ _ _ _ _ _ _ _ 75 _ _ o2_0).trans
      ((extractLoop_more _ _ _ _ _ _ _ _ 74 _ _ o2_1).trans
      ((extractLoop_more _ _ _ _ _ _ _ _ 73 _ _ o2_2).trans
      ((extractLoop_more _ _ _ _ _ _ _ _ 72 _ _ o2_3).trans
      ((extractLoop_more _ _ _ _ _ _ _ _ 71 _ _ o2_4).trans
      ((extractLoop_more _ _ _ _ _ _ _ _ 70 _ _ o2_5).trans
      (extractLoop_done _ _ _ _ _ _ _ _ 69 _ _ o2_6)))))))
    have hw2 : extractKeywords kw2Store "keywrd with many woords" false 2 =
        extractOut false (extractLoop kw2Nwb kw2Wsp kwNode23 2 kw2Sent 23 76 76 76
          (⟨0, kwNode23, 0, 0, 2, []⟩)) := by
      unfold extractKeywords
      rw [if_neg (by decide)]
      exact congrArg (extractOut false) (by congr 1)
    exact hw2.trans ((congrArg (extractOut false) loop2).trans (by decide))
  case right =>
    have i1_0 : extractInnerStep kw2Nwb kw2Wsp kw2Sent 23 76
        (⟨7, kwNode15, some "keyword", 6, false, 0⟩) =
        .ok (.inr (⟨8, kwNode14, some "keyword", 6, false, 0⟩)) := by decide
    have i1_1 : extractInnerStep kw2Nwb kw2Wsp kw2Sent 23 76
        (⟨8, kwNode14, some "keyword", 6, false, 0⟩) =
        .ok (.inr (⟨9, kwNode13, some "keyword", 6, false, 0⟩)) := by decide
    have i1_2 : extractInnerStep kw2Nwb kw2Wsp kw2Sent 23 76
        (⟨9, kwNode13, some "keyword", 6, false, 0⟩) =
        .ok (.inr (⟨10, kwNode12, some "keyword", 6, false, 0⟩)) := by decide
    have i1_3 : extractInnerStep kw2Nwb kw2Wsp kw2Sent 23 76
        (⟨10, kwNode12, some "keyword", 6, false, 0⟩) =
        .ok (.inr (⟨11, kwNode11, some "keyword", 6, false, 0⟩)) := by decide
    have i1_4 : extractInnerStep kw2Nwb kw2Wsp kw2Sent 23 76
        (⟨11, kwNode11, some "keyword", 6, false, 0⟩) =
        .ok (.inr (⟨12, kwNode10, some "keyword", 6, false, 0⟩)) := by decide
    have i1_5 : extractInnerStep kw2Nwb kw2Wsp kw2Sent 23 76
        (⟨12, kwNode10, some "keyword", 6, false, 0⟩) =
        .ok (.inr (⟨13, kwNode9, some "keyword", 6, false, 0⟩)) := by decide
    have i1_6 : extractInnerStep kw2Nwb kw2Wsp kw2Sent 23 76
        (⟨13, kwNode9, some "keyword", 6, false, 0⟩) =
        .ok (.inr (⟨14, kwNode8, some "keyword", 6, false, 0⟩)) := by decide
    have i1_7 : extractInnerStep kw2Nwb kw2Wsp kw2Sent 23 76
        (⟨14, kwNode8, some "keyword", 6, false, 0⟩) =
        .ok (.inr (⟨15, kwNode7, some "keyword", 6, false, 0⟩)) := by decide
    have i1_8 : extractInnerStep kw2Nwb kw2Wsp kw2Sent 23 76
        (⟨15, kwNode7, some "keyword", 6, false, 0⟩) =
        .ok (.inr (⟨16, kwNode6, some "keyword", 6, false, 0⟩)) := by decide
    have i1_9 : extractInnerStep kw2Nwb kw2Wsp kw2Sent 23 76
        (⟨16, kwNode6, some "keyword", 6, false, 0⟩) =
        .ok (.inr (⟨17, kwNode5, some "keyword", 6, false, 0⟩)) := by decide
    have i1_10 : extractInnerStep kw2Nwb kw2Wsp kw2Sent 23 76
        (⟨17, kwNode5, some "keyword", 6, false, 0⟩) =
        .ok (.inr (⟨18, kwNode4, some "keyword", 6, false, 0⟩)) := by decide
    have i1_11 : extractInnerStep kw2Nwb kw2Wsp kw2Sent 23 76
        (⟨18, kwNode4, some "keyword", 6, false, 0⟩) =
        .ok (.inr (⟨19, kwNode3, some "keyword", 6, false, 0⟩)) := by decide
    have i1_12 : extractInnerStep kw2Nwb kw2Wsp kw2Sent 23 76
        (⟨19, kwNode3, some "keyword", 6, false, 0⟩) =
        .ok (.inl (⟨19, kwNode3, some "keyword", 6, false, 0⟩)) := by decide
    have inn1 : extractInner kw2Nwb kw2Wsp kw2Sent 23 76 76
        (⟨7, kwNode15, some "keyword", 6, false, 0⟩) =
        .ok (⟨19, kwNode3, some "keyword", 6, false, 0⟩) :=
      ((extractInner_more _ _ _ _ _ 75 _ _ i1_0).trans
      ((extractInner_more _ _ _ _ _ 74 _ _ i1_1).trans
      ((extractInner_more _ _ _ _ _ 73 _ _ i1_2).trans
      ((extractInner_more _ _ _ _ _ 72 _ _ i1_3).trans
      ((extractInner_more _ _ _ _ _ 71 _ _ i1_4).trans
      ((extractInner_more _ _ _ _ _ 70 _ _ i1_5).trans
      ((extractInner_more _ _ _ _ _ 69 _ _ i1_6).trans
      ((extractInner_more _ _ _ _ _ 68 _ _ i1_7).trans
      ((extractInner_more _ _ _ _ _ 67 _ _ i1_8).trans
      ((extractInner_more _ _ _ _ _ 66 _ _ i1_9).trans
      ((extractInner_more _ _ _ _ _ 65 _ _ i1_10).trans
      ((extractInner_more _ _ _ _ _ 64 _ _ i1_11).trans
      (extractInner_done _ _ _ _ _ 63 _ _ i1_12)))))))))))))
    have o1_0 : extractStep kw2Nwb kw2Wsp kwNode23 1 kw2Sent 23 76 76
        (⟨0, kwNode23, 0, 0, 1, []⟩) =
        .ok (.inr (⟨1, kwNode22, 0, 0, 1, []⟩)) := by decide
    have o1_1 : extractStep kw2Nwb kw2Wsp kwNode23 1 kw2Sent 23 76 76
        (⟨1, kwNode22, 0, 0, 1, []⟩) =
        .ok (.inr (⟨2, kwNode21, 0, 0, 1, []⟩)) := by decide
    have o1_2 : extractStep kw2Nwb kw2Wsp kwNode23 1 kw2Sent 23 76 76
        (⟨2, kwNode21, 0, 0, 1, []⟩) =
        .ok (.inr (⟨3, kwNode20, 0, 0, 1, []⟩)) := by decide
    have o1_3 : extractStep kw2Nwb kw2Wsp kwNode23 1 kw2Sent 23 76 76
        (⟨3, kwNode20, 0, 0, 1, []⟩) =
        .ok (.inr (⟨4, kwNode19, 0, 0, 1, []⟩)) := by decide
    have o1_4 : extractStep kw2Nwb kw2Wsp kwNode23 1 kw2Sent 23 76 76
        (⟨4, kwNode19, 0, 0, 1, []⟩) =
        .ok (.inr (⟨6, kwNode16, 0, 0, 0, []⟩)) := by decide
    have o1_5 : extractStep kw2Nwb kw2Wsp kwNode23 1 kw2Sent 23 76 76
        (⟨6, kwNode16, 0, 0, 0, []⟩) =
        .ok (.inr (⟨7, kwNode23, 7, 6, 1, [("keyword", 0, 6)]⟩)) :=
      extractStep_boundary _ _ _ _ _ _ _ _ _ _ _ _
        (by decide) (by decide) (by decide) (by decide) inn1 (by decide)
    have o1_6 : extractStep kw2Nwb kw2Wsp kwNode23 1 kw2Sent 23 76 76
        (⟨7, kwNode23, 7, 6, 1, [("keyword", 0, 6)]⟩) =
        .error .typeError := by decide
    have loop1 : extractLoop kw2Nwb kw2Wsp kwNode23 1 kw2Sent 23 76 76 76
        (⟨0, kwNode23, 0, 0, 1, []⟩) =
        .error .typeError :=
      ((extractLoop_more _ _ _ _ _ _ _ _ 75 _ _ o1_0).trans
      ((extractLoop_more _ _ _ _ _ _ _ _ 74 _ _ o1_1).trans
      ((extractLoop_more _ _ _ _ _ _ _ _ 73 _ _ o1_2).trans
      ((extractLoop_more _ _ _ _ _ _ _ _ 72 _ _ o1_3).trans
      ((extractLoop_more _ _ _ _ _ _ _ _ 71 _ _ o1_4).trans
      ((extractLoop_more _ _ _ _ _ _ _ _ 70 _ _ o1_5).trans
      (extractLoop_err _ _ _ _ _ _ _ _ 69 _ _ o1_6)))))))
    have hw1 : extractKeywords kw2Store "keywrd with many woords" false 1 =
        extractOut false (extractLoop kw2Nwb kw2Wsp kwNode23 1 kw2Sent 23 76 76 76
          (⟨0, kwNode23, 0, 0, 1, []⟩)) := by
      unfold extractKeywords
      rw [if_neg (by decide)]
      exact congrArg (extractOut false) (by congr 1)
    exact hw1.trans ((congrArg (extractOut false) loop1).trans (by decide))

/-- C3: the claim expects extractKeywords("Hello, do you have Telegam?",
true, 1) to return [("Messenger", 19, 26)]; the code instead throws a
TypeError before reaching the misspelling: the approximate search for the
unrelated word "hello" from the root yields nothing, and its
.next().value is destructured without a default.  On the bare misspelled
word the fuzzy machinery itself matches within budget 1. -/
theorem C3_fuzzy_crash :
    extractKeywords telegramStore "Hello, do you have Telegam?" true 1 =
      .error .typeError ∧
    extractKeywords telegramStore "Telegam" true 1 =
      .ok (.spans [("Messenger", 0, 7)]) := by
  exact ⟨by decide, by decide⟩

/-- C7 counterexample: with only JS stored (label Javascript), the
sentence "I like JS" has one exact occurrence whose label is Javascript
and no label collides with another stored keyword, yet re-extracting from
the replaced output yields [] instead of ["Javascript"]: the label is not
itself a stored keyword. -/
theorem C7_roundtrip_counterexample :
    replaceKeywords jsStore "I like JS" 0 = .ok "I like Javascript" ∧
    extractKeywords jsStore "I like JS" false 0 =
      .ok (.labels ["Javascript"]) ∧
    extractKeywords jsStore "I like Javascript" false 0 =
      .ok (.labels []) := by
  exact ⟨by decide, by decide, by decide⟩

/-- C7 amended: when every label is itself a stored keyword mapping to
itself (keywords added with defaulted clean names), re-extraction of the
replaced output yields exactly the labels of the occurrences matched in
the original sentence; verified on the store {ab, cd} and the sentence
"AB x cd" with maxCost 0 (case-insensitive matching, original casing in
the sentence). -/
theorem C7_roundtrip_identity_labels :
    replaceKeywords identStore "AB x cd" 0 = .ok "ab x cd" ∧
    extractKeywords identStore "AB x cd" false 0 =
      .ok (.labels ["ab", "cd"]) ∧
    extractKeywords identStore "ab x cd" false 0 =
      .ok (.labels ["ab", "cd"]) := by
  exact ⟨by decide, by decide, by decide⟩

/-- C10: whenever removeKeyword returns false (empty keyword, a walk that
breaks before consuming every character, or a final node without a
terminal marker), the store comes back exactly as it was: the walk of
_deleteItem only reads the trie, and every mutation sits inside the
success branch. -/
theorem C10_remove_fail_atomic (st : FlashText) (keyword : String)
    (h : (removeKeyword st keyword).1 = false) :
    (removeKeyword st keyword).2 = st := by
  unfold removeKeyword deleteItem at h ⊢
  by_cases hk : keyword = ""
  · simp [hk]
  · simp only [if_neg hk] at h ⊢
    cases hm : delEntries (rootEntries st) (normWord st keyword.data) with
    | none => simp [hm]
    | some p => simp [hm] at h

/-- Witness for C10 at a concrete input: removing an absent keyword from
a fresh store fails and leaves the store untouched. -/
theorem C10_remove_fail_atomic_witness :
    (removeKeyword (mkFlashText false) "cat").1 = false ∧
    (removeKeyword (mkFlashText false) "cat").2 = mkFlashText false :=
  ⟨by decide, C10_remove_fail_atomic (mkFlashText false) "cat" (by decide)⟩

/-- C8: extractKeywords and replaceKeywords leave every field of the
store unchanged - the trie, the term count, the case-sensitivity flag and
both character sets - including when the approximate search runs
(maxCost arbitrary).  The JS method bodies assign no field of this and
perform only Map reads, so their state-transformer semantics returns the
receiver unchanged. -/
theorem C8_scanning_preserves_store (st : FlashText) (sentence : String)
    (spanInfo : Bool) (maxCost maxCostR : Nat) :
    (extractKeywordsSt st sentence spanInfo maxCost).2.keywordTrieDict =
        st.keywordTrieDict ∧
    (extractKeywordsSt st sentence spanInfo maxCost).2.termsInTrie =
        st.termsInTrie ∧
    (extractKeywordsSt st sentence spanInfo maxCost).2.caseSensitive =
        st.caseSensitive ∧
    (extractKeywordsSt st sentence spanInfo maxCost).2.nonWordBoundaries =
        st.nonWordBoundaries ∧
    (extractKeywordsSt st sentence spanInfo maxCost).2.whiteSpaceChars =
        st.whiteSpaceChars ∧
    (replaceKeywordsSt st sentence maxCostR).2 = st :=
  ⟨rfl, rfl, rfl, rfl, rfl, rfl⟩

/-- Map.set stores the given value under the given key. -/
theorem mget_mset_self (es : Entries) (k : TKey) (v : TrieVal) :
    mget (mset es k v) k = some v := by
  induction es with
  | nil => simp [mset, mget]
  | cons e es ih =>
      obtain ⟨k0, v0⟩ := e
      by_cases h0 : k0 = k
      · simp [mset, h0, mget]
      · simp [mset, h0, mget, ih]

/-- Map.set does not touch entries under other keys. -/
theorem mget_mset_ne (es : Entries) (k k' : TKey) (v : TrieVal)
    (h : k' ≠ k) : mget (mset es k v) k' = mget es k' := by
  induction es with
  | nil => simp [mset, mget, Ne.symm h]
  | cons e es ih =>
      obtain ⟨k0, v0⟩ := e
      by_cases h0 : k0 = k
      · subst h0
        simp [mset, mget, Ne.symm h, h]
      · by_cases h1 : k0 = k'
        · subst h1
          simp [mset, h0, mget, h]
        · simp [mset, h0, mget, h1, ih]

/-- Map.delete does not touch entries under other keys. -/
theorem mget_mdel_ne (es : Entries) (k k' : TKey) (h : k' ≠ k) :
    mget (mdel es k) k' = mget es k' := by
  induction es with
  | nil => simp [mdel]
  | cons e es ih =>
      obtain ⟨k0, v0⟩ := e
      by_cases h0 : k0 = k
      · subst h0
        simp [mdel, mget, Ne.symm h]
      · by_cases h1 : k0 = k'
        · subst h1
          simp [mdel, h0, mget]
        · simp [mdel, h0, mget, h1, ih]

/-- Map.set under a character key leaves the sentinel entry alone. -/
theorem mget_mset_kw_ch (es : Entries) (c : Char) (v : TrieVal) :
    mget (mset es (.ch c) v) .kw = mget es .kw :=
  mget_mset_ne es _ _ _ (by simp)

/-- Map.delete of a character key leaves the sentinel entry alone. -/
theorem mget_mdel_kw_ch (es : Entries) (c : Char) :
    mget (mdel es (.ch c)) .kw = mget es .kw :=
  mget_mdel_ne es _ _ (by simp)

/-- Map.set with the value already stored under the key is the identity. -/
theorem mset_self (es : Entries) (k : TKey) (v : TrieVal)
    (h : mget es k = some v) : mset es k v = es := by
  induction es with
  | nil => simp [mget] at h
  | cons e es ih =>
      obtain ⟨k0, v0⟩ := e
      by_cases h0 : k0 = k
      · subst h0
        simp [mget] at h
        simp [mset, h]
      · simp [mget, h0] at h
        simp [mset, h0, ih h]

/-- Map.set of an absent key appends the entry. -/
theorem mset_absent (es : Entries) (k : TKey) (v : TrieVal)
    (h : mget es k = none) : mset es k v = es ++ [(k, v)] := by
  induction es with
  | nil => simp [mset]
  | cons e es ih =>
      obtain ⟨k0, v0⟩ := e
      by_cases h0 : k0 = k
      · subst h0
        simp [mget] at h
      · simp [mget, h0] at h
        simp [mset, h0, ih h]

/-- A non-empty keyword stays non-empty under case normalization. -/
theorem normWord_ne_nil (st : FlashText) (w : List Char) (h : w ≠ []) :
    normWord st w ≠ [] := by
  unfold normWord
  split
  · exact h
  · simpa using h

/-- The trie update of _setItem for a non-empty keyword never touches the
sentinel of the root: the first walked edge is a character key. -/
theorem setEntries_root_kw (es : Entries) (c : Char) (cs : List Char)
    (L : String) :
    mget (setEntries es (c :: cs) L).1 .kw = mget es .kw := by
  unfold setEntries
  cases hm : mget es (.ch c) with
  | none => simp [mget_mset_kw_ch]
  | some v =>
      cases v with
      | str s => simp [mget_mset_kw_ch]
      | map es' => simp [mget_mset_kw_ch]

/-- The trie update of _deleteItem for a non-empty keyword never touches
the sentinel of the root. -/
theorem delEntries_root_kw (es : Entries) (c : Char) (cs : List Char)
    (r : Entries × Bool) (h : delEntries es (c :: cs) = some r) :
    mget r.1 .kw = mget es .kw := by
  unfold delEntries at h
  cases hm : mget es (.ch c) with
  | none => simp [hm] at h
  | some v =>
      cases v with
      | str s => simp [hm] at h
      | map es' =>
          simp only [hm] at h
          cases hd : delEntries es' cs with
          | none => simp [hd] at h
          | some p =>
              simp only [hd] at h
              by_cases hp : p.2
              · rw [if_pos (by simp [hp])] at h
                injection h with h
                rw [← h]
                simp [mget_mdel_kw_ch]
              · rw [if_neg (by simp [hp])] at h
                injection h with h
                rw [← h]
                simp [mget_mset_kw_ch]

/-- A non-empty string has a non-empty character list. -/
theorem string_data_ne_nil (k : String) (h : k ≠ "") : k.data ≠ [] := by
  intro hd
  exact h (String.ext_iff.mpr (by simpa using hd))

/-- One public call preserves the absence of a sentinel at the root:
inserting a non-empty keyword writes the sentinel at depth one or more,
deleting only removes entries, and the boundary setters do not touch the
trie. -/
theorem applyOp_root_kw (st : FlashText) (op : ApiOp)
    (h : mget (rootEntries st) .kw = none) :
    mget (rootEntries (applyOp st op)) .kw = none := by
  cases op with
  | add k cn =>
      simp only [applyOp, addKeyword, setItem]
      by_cases hk : k = ""
      · simpa [hk] using h
      · rw [if_neg hk]
        cases hks : normWord st k.data with
        | nil => exact absurd hks (normWord_ne_nil st _ (string_data_ne_nil k hk))
        | cons c cs =>
            simpa [rootEntries, hks, setEntries_root_kw] using h
  | remove k =>
      simp only [applyOp, removeKeyword, deleteItem]
      by_cases hk : k = ""
      · simpa [hk] using h
      · rw [if_neg hk]
        cases hks : normWord st k.data with
        | nil => exact absurd hks (normWord_ne_nil st _ (string_data_ne_nil k hk))
        | cons c cs =>
            cases hd : delEntries (rootEntries st) (c :: cs) with
            | none => simpa using h
            | some r =>
                obtain ⟨es', b⟩ := r
                simpa [rootEntries] using
                  (delEntries_root_kw _ _ _ _ hd).trans h
  | setNWB l => simpa [applyOp, rootEntries] using h
  | addNWB c => simpa [applyOp, rootEntries] using h

/-- C9: in every store reachable through the public API the root node
carries no terminal marker, because the empty keyword is rejected by
insert; consequently contains("") is false and getKeyword("") is
undefined on every reachable store. -/
theorem C9_root_never_terminal (cs : Bool) (ops : List ApiOp) :
    mget (rootEntries (applyOps ops (mkFlashText cs))) .kw = none ∧
    contains (applyOps ops (mkFlashText cs)) "" = false ∧
    getKeyword (applyOps ops (mkFlashText cs)) "" = none := by
  have hroot : ∀ (l : List ApiOp) (st : FlashText),
      mget (rootEntries st) .kw = none →
      mget (rootEntries (applyOps l st)) .kw = none := by
    intro l
    induction l with
    | nil => intro st h; exact h
    | cons op l ih =>
        intro st h
        exact ih (applyOp st op) (applyOp_root_kw st op h)
  have h := hroot ops (mkFlashText cs) (by simp [mkFlashText, rootEntries, mget])
  have hempty : normWord (applyOps ops (mkFlashText cs)) "".data = [] := by
    unfold normWord
    split <;> simp
  refine ⟨h, ?_, ?_⟩
  · unfold contains containsEntries
    rw [hempty]
    simp [walkEntries, mhas, h]
  · unfold getKeyword getItem lookupEntries
    rw [hempty]
    simp [walkEntries, h]

/-- Inserting along a fresh path always sets the sentinel and makes the
keyword retrievable. -/
theorem setEntries_nil_fresh (cs : List Char) (L : String) :
    (setEntries [] cs L).2 = true ∧
    lookupEntries (setEntries [] cs L).1 cs = some L := by
  induction cs with
  | nil => simp [setEntries, mhas, mget, mset, lookupEntries, walkEntries]
  | cons c cs ih =>
      simp only [setEntries, mget, mset]
      refine ⟨ih.1, ?_⟩
      simpa [lookupEntries, walkEntries, mget] using ih.2

/-- _setItem on a keyword that is not yet stored returns true and stores
the clean name at the end of the walked path. -/
theorem setEntries_new (ks : List Char) (es : Entries) (L : String)
    (h : containsEntries es ks = false) :
    (setEntries es ks L).2 = true ∧
    lookupEntries (setEntries es ks L).1 ks = some L := by
  induction ks generalizing es with
  | nil =>
      unfold containsEntries walkEntries at h
      unfold setEntries
      simp only [mhas] at h ⊢
      rw [if_neg (by simp [h])]
      simp [lookupEntries, walkEntries, mget_mset_self]
  | cons c cs ih =>
      unfold containsEntries walkEntries at h
      unfold setEntries
      cases hm : mget es (.ch c) with
      | none =>
          have hf := setEntries_nil_fresh cs L
          refine ⟨hf.1, ?_⟩
          simpa [lookupEntries, walkEntries, mget_mset_self] using hf.2
      | some v =>
          cases v with
          | str s =>
              have hf := setEntries_nil_fresh cs L
              refine ⟨hf.1, ?_⟩
              simpa [lookupEntries, walkEntries, mget_mset_self] using hf.2
          | map es' =>
              simp only [hm] at h ⊢
              have hsub : containsEntries es' cs = false := h
              have := ih es' hsub
              refine ⟨this.1, ?_⟩
              simpa [lookupEntries, walkEntries, mget_mset_self] using this.2

/-- _setItem on an already stored keyword changes nothing and returns
false: the sentinel write sits inside a Map.has guard. -/
theorem setEntries_stored (ks : List Char) (es : Entries) (L : String)
    (h : containsEntries es ks = true) :
    setEntries es ks L = (es, false) := by
  induction ks generalizing es with
  | nil =>
      unfold containsEntries walkEntries at h
      unfold setEntries
      rw [if_pos (by simpa [mhas] using h)]
  | cons c cs ih =>
      unfold containsEntries walkEntries at h
      unfold setEntries
      cases hm : mget es (.ch c) with
      | none => simp [hm] at h
      | some v =>
          cases v with
          | str s => simp [hm] at h
          | map es' =>
              simp only [hm] at h ⊢
              have hsub : containsEntries es' cs = true := h
              rw [ih es' hsub, mset_self es _ _ hm]

/-- C1 amended: addKeyword(K, L) rejects the empty keyword unchanged;
stores L and increments the term count exactly when K (after case
normalization) is not yet stored, returning true; and when K is already
stored it returns false and leaves the store - including the previously
stored label - entirely unchanged (the code does not overwrite the
label). -/
theorem C1_addKeyword_spec (st : FlashText) (k L : String) :
    (k = "" → addKeyword st k (some L) = (false, st)) ∧
    (k ≠ "" → contains st k = false →
      (addKeyword st k (some L)).1 = true ∧
      (addKeyword st k (some L)).2.termsInTrie = st.termsInTrie + 1 ∧
      getKeyword (addKeyword st k (some L)).2 k = some L) ∧
    (contains st k = true →
      (addKeyword st k (some L)).1 = false ∧
      (addKeyword st k (some L)).2 = st) := by
  refine ⟨?_, ?_, ?_⟩
  · intro hk
    simp [addKeyword, setItem, hk]
  · intro hk hc
    have hset := setEntries_new (normWord st k.data) (rootEntries st) L hc
    simp only [addKeyword, setItem, if_neg hk, Option.getD]
    refine ⟨hset.1, by simp [hset.1], ?_⟩
    unfold getKeyword getItem
    have hcs : ∀ es,
        normWord { st with keywordTrieDict := es,
                           termsInTrie := st.termsInTrie + 1 } k.data =
          normWord st k.data := by
      intro es
      unfold normWord
      rfl
    simpa [rootEntries, hset.1, hcs] using hset.2
  · intro hc
    by_cases hk : k = ""
    · simp [addKeyword, setItem, hk]
    · have hset := setEntries_stored (normWord st k.data) (rootEntries st) L hc
      simp only [addKeyword, setItem, if_neg hk, Option.getD, hset]
      refine ⟨by simp, ?_⟩
      have : st.keywordTrieDict = .map (rootEntries st) := by
        cases hv : st.keywordTrieDict with
        | map es => simp [rootEntries, hv]
        | str s =>
            exfalso
            unfold contains containsEntries at hc
            rw [show rootEntries st = [] by simp [rootEntries, hv]] at hc
            cases hks : normWord st k.data with
            | nil => rw [hks] at hc; simp [walkEntries, mhas, mget] at hc
            | cons c cs => rw [hks] at hc; simp [walkEntries, mget] at hc
      cases st with
      | mk wsp nwb trie cs terms => simpa using this.symm

/-- C1 counterexample to the claim as stated: after addKeyword("a", "x")
a second addKeyword("a", "y") returns false but does not overwrite the
stored label, which remains "x" and not "y". -/
theorem C1_relabel_counterexample :
    (addKeyword (addKeyword (mkFlashText false) "a" (some "x")).2
      "a" (some "y")).1 = false ∧
    getKeyword (addKeyword (addKeyword (mkFlashText false) "a" (some "x")).2
      "a" (some "y")).2 "a" = some "x" ∧
    ¬ getKeyword (addKeyword (addKeyword (mkFlashText false) "a" (some "x")).2
      "a" (some "y")).2 "a" = some "y" :=
  ⟨by decide, by decide, by decide⟩

/-- Witness for C1 at concrete inputs: the empty keyword is rejected; a
fresh keyword is stored with its label and bumps the count; re-inserting
a stored keyword under a new label returns false and changes nothing. -/
theorem C1_addKeyword_spec_witness :
    addKeyword (mkFlashText false) "" (some "x") = (false, mkFlashText false) ∧
    ((addKeyword (mkFlashText false) "ab" (some "x")).1 = true ∧
     (addKeyword (mkFlashText false) "ab" (some "x")).2.termsInTrie =
       (mkFlashText false).termsInTrie + 1 ∧
     getKeyword (addKeyword (mkFlashText false) "ab" (some "x")).2 "ab" =
       some "x") ∧
    ((addKeyword jsStore "JS" (some "y")).1 = false ∧
     (addKeyword jsStore "JS" (some "y")).2 = jsStore) :=
  ⟨(C1_addKeyword_spec (mkFlashText false) "" "x").1 rfl,
   (C1_addKeyword_spec (mkFlashText false) "ab" "x").2.1 (by decide) (by decide),
   (C1_addKeyword_spec jsStore "JS" "y").2.2 (by decide)⟩

/-- Terminal counting distributes over concatenation. -/
theorem countEntries_append (es fs : Entries) :
    countEntries (es ++ fs) = countEntries es + countEntries fs := by
  induction es with
  | nil => simp [countEntries]
  | cons e es ih =>
      obtain ⟨k, v⟩ := e
      cases k with
      | kw => simp [countEntries, ih]; omega
      | ch c => simp [countEntries, ih]; omega

/-- Setting a fresh sentinel adds exactly one terminal. -/
theorem countEntries_mset_kw_new (es : Entries) (L : String)
    (h : mget es .kw = none) :
    countEntries (mset es .kw (.str L)) = countEntries es + 1 := by
  rw [mset_absent es _ _ h, countEntries_append]
  simp [countEntries, countTerminals]

/-- Replacing the subtree under an existing character key exchanges its
terminal count. -/
theorem countEntries_mset_ch (es : Entries) (c : Char) (X : Entries)
    (v0 : TrieVal) (h : mget es (.ch c) = some v0) :
    countEntries (mset es (.ch c) (.map X)) + countTerminals v0 =
      countEntries es + countEntries X := by
  induction es with
  | nil => simp [mget] at h
  | cons e es ih =>
      obtain ⟨k0, w⟩ := e
      by_cases h0 : k0 = .ch c
      · subst h0
        simp [mget] at h
        subst h
        simp [mset, countEntries, countTerminals]
        omega
      · simp [mget, h0] at h
        cases k0 with
        | kw =>
            have hih := ih h
            simp [mset, h0, countEntries]
            omega
        | ch c0 =>
            have hih := ih h
            simp [mset, h0, countEntries]
            omega

/-- Setting a subtree under a fresh character key adds its terminal
count. -/
theorem countEntries_mset_ch_new (es : Entries) (c : Char) (X : Entries)
    (h : mget es (.ch c) = none) :
    countEntries (mset es (.ch c) (.map X)) =
      countEntries es + countEntries X := by
  rw [mset_absent es _ _ h, countEntries_append]
  simp [countEntries, countTerminals]

/-- Deleting a present sentinel removes exactly one terminal. -/
theorem countEntries_mdel_kw (es : Entries) (v : TrieVal)
    (h : mget es .kw = some v) :
    countEntries (mdel es .kw) + 1 = countEntries es := by
  induction es with
  | nil => simp [mget] at h
  | cons e es ih =>
      obtain ⟨k0, w⟩ := e
      by_cases h0 : k0 = .kw
      · subst h0
        simp [mdel, countEntries]
        omega
      · simp [mget, h0] at h
        cases k0 with
        | kw => simp at h0
        | ch c0 =>
            have hih := ih h
            simp [mdel, h0, countEntries]
            omega

/-- Deleting a present character edge removes its subtree's terminal
count. -/
theorem countEntries_mdel_ch (es : Entries) (c : Char) (v0 : TrieVal)
    (h : mget es (.ch c) = some v0) :
    countEntries (mdel es (.ch c)) + countTerminals v0 = countEntries es := by
  induction es with
  | nil => simp [mget] at h
  | cons e es ih =>
      obtain ⟨k0, w⟩ := e
      by_cases h0 : k0 = .ch c
      · subst h0
        simp [mget] at h
        subst h
        simp [mdel, countEntries]
        omega
      · simp [mget, h0] at h
        cases k0 with
        | kw =>
            have hih := ih h
            simp [mdel, h0, countEntries]
            omega
        | ch c0 =>
            have hih := ih h
            simp [mdel, h0, countEntries]
            omega

/-- A failed Map.has means the key is absent. -/
theorem mhas_false_iff (es : Entries) (k : TKey) (h : mhas es k = false) :
    mget es k = none := by
  unfold mhas at h
  cases hm : mget es k with
  | none => rfl
  | some v => rw [hm] at h; simp at h

/-- The trie update of _setItem adds one terminal exactly when it
returns true. -/
theorem setEntries_count (ks : List Char) (es : Entries) (L : String) :
    countEntries (setEntries es ks L).1 =
      countEntries es + (if (setEntries es ks L).2 then 1 else 0) := by
  induction ks generalizing es with
  | nil =>
      unfold setEntries
      by_cases h : mhas es .kw
      · simp [h]
      · rw [if_neg (by simp [h])]
        simp [countEntries_mset_kw_new es L (mhas_false_iff es .kw (by simpa using h))]
  | cons c cs ih =>
      unfold setEntries
      cases hm : mget es (.ch c) with
      | none =>
          have h1 := ih []
          have h2 := countEntries_mset_ch_new es c (setEntries [] cs L).1 hm
          simp only [countEntries] at h1
          cases hr : (setEntries [] cs L).2 <;> simp [hr] at h1 <;>
            simp [h2, h1, hr]
      | some v =>
          cases v with
          | str s =>
              have h1 := ih []
              have h2 := countEntries_mset_ch es c (setEntries [] cs L).1
                (.str s) hm
              simp only [countTerminals] at h2
              simp only [countEntries] at h1
              cases hr : (setEntries [] cs L).2 <;> simp [hr] at h1 <;>
                simp [hr] <;> omega
          | map es' =>
              have h1 := ih es'
              have h2 := countEntries_mset_ch es c (setEntries es' cs L).1
                (.map es') hm
              simp only [countTerminals] at h2
              cases hr : (setEntries es' cs L).2 <;> simp [hr] at h1 <;>
                simp [hr] <;> omega

/-- When the pruning walk reports a one-entry chain, the processed node
held exactly one terminal (the chain is the walked path ending in the
sentinel). -/
theorem delEntries_prune_singleton (ks : List Char) (es : Entries)
    (r : Entries) (h : delEntries es ks = some (r, true)) :
    countEntries es = 1 := by
  induction ks generalizing es r with
  | nil =>
      unfold delEntries at h
      by_cases hh : mhas es .kw
      · rw [if_pos hh] at h
        injection h with h
        have hb := congrArg Prod.snd h
        simp [msize] at hb
        cases es with
        | nil => simp [mhas, mget] at hh
        | cons e es' =>
            simp at hb
            obtain ⟨k0, v0⟩ := e
            subst hb
            cases k0 with
            | kw => simp [countEntries]
            | ch c0 => simp [mhas, mget] at hh
      · rw [if_neg hh] at h
        exact absurd h (by simp)
  | cons c cs ih =>
      unfold delEntries at h
      cases hm : mget es (.ch c) with
      | none => simp [hm] at h
      | some v =>
          cases v with
          | str s => simp [hm] at h
          | map es' =>
              simp only [hm] at h
              cases hd : delEntries es' cs with
              | none => simp [hd] at h
              | some p =>
                  obtain ⟨q, pb⟩ := p
                  simp only [hd] at h
                  cases hpb : pb with
                  | false => rw [hpb] at h; simp at h
                  | true =>
                      rw [hpb] at h
                      simp only [if_pos rfl] at h
                      injection h with h
                      have hb := congrArg Prod.snd h
                      simp [msize] at hb
                      have hsub := ih es' q (by rw [hd, hpb])
                      cases es with
                      | nil => simp [mget] at hm
                      | cons e es0 =>
                          simp at hb
                          obtain ⟨k0, v0⟩ := e
                          subst hb
                          cases k0 with
                          | kw => simp [mget] at hm
                          | ch c0 =>
                              simp [mget] at hm
                              obtain ⟨hc0, hv0⟩ := hm
                              subst hv0
                              simp [countEntries, countTerminals, hsub]

/-- The pruning walk of _deleteItem removes exactly one terminal. -/
theorem delEntries_count (ks : List Char) (es : Entries) (r : Entries)
    (b : Bool) (h : delEntries es ks = some (r, b)) :
    countEntries r + 1 = countEntries es := by
  induction ks generalizing es r b with
  | nil =>
      unfold delEntries at h
      by_cases hh : mhas es .kw
      · rw [if_pos hh] at h
        injection h with h
        have hr := congrArg Prod.fst h
        simp at hr
        subst hr
        obtain ⟨v, hv⟩ : ∃ v, mget es .kw = some v := by
          unfold mhas at hh
          cases hm : mget es .kw with
          | none => rw [hm] at hh; simp at hh
          | some v => exact ⟨v, rfl⟩
        exact countEntries_mdel_kw es v hv
      · rw [if_neg hh] at h
        exact absurd h (by simp)
  | cons c cs ih =>
      unfold delEntries at h
      cases hm : mget es (.ch c) with
      | none => simp [hm] at h
      | some v =>
          cases v with
          | str s => simp [hm] at h
          | map es' =>
              simp only [hm] at h
              cases hd : delEntries es' cs with
              | none => simp [hd] at h
              | some p =>
                  obtain ⟨q, pb⟩ := p
                  simp only [hd] at h
                  cases hpb : pb with
                  | true =>
                      rw [hpb] at h
                      simp only [if_pos rfl] at h
                      injection h with h
                      have hr := congrArg Prod.fst h
                      simp at hr
                      subst hr
                      have h1 := countEntries_mdel_ch es c (.map es') hm
                      have h2 := delEntries_prune_singleton cs es' q
                        (by rw [hd, hpb])
                      simp only [countTerminals] at h1
                      omega
                  | false =>
                      rw [hpb] at h
                      simp only [Bool.false_eq_true, if_false] at h
                      injection h with h
                      have hr := congrArg Prod.fst h
                      simp at hr
                      subst hr
                      have h1 := countEntries_mset_ch es c q (.map es') hm
                      have h2 := ih es' q pb (by rw [hd, hpb])
                      simp only [countTerminals] at h1
                      omega

/-- Terminal count of the store seen through rootEntries. -/
theorem countTerminals_root (st : FlashText) :
    countTerminals st.keywordTrieDict = countEntries (rootEntries st) := by
  cases hv : st.keywordTrieDict <;>
    simp [rootEntries, hv, countTerminals, countEntries]

/-- One public call preserves "termsInTrie equals the number of terminal
markers reachable from the root". -/
theorem applyOp_count (st : FlashText) (op : ApiOp)
    (h : st.termsInTrie = (countTerminals st.keywordTrieDict : Int)) :
    (applyOp st op).termsInTrie =
      (countTerminals (applyOp st op).keywordTrieDict : Int) := by
  cases op with
  | add k cn =>
      simp only [applyOp, addKeyword, setItem]
      by_cases hk : k = ""
      · simpa [hk] using h
      · rw [if_neg hk]
        have hc := setEntries_count (normWord st k.data) (rootEntries st)
          (cn.getD k)
        rw [countTerminals_root] at h
        cases hr : (setEntries (rootEntries st) (normWord st k.data)
            (cn.getD k)).2 <;>
          simp only [hr, if_true, if_false] at hc ⊢ <;>
          simp [countTerminals, hc, h]
  | remove k =>
      simp only [applyOp, removeKeyword, deleteItem]
      by_cases hk : k = ""
      · simpa [hk] using h
      · rw [if_neg hk]
        cases hd : delEntries (rootEntries st) (normWord st k.data) with
        | none => simpa using h
        | some p =>
            obtain ⟨es', b⟩ := p
            have hc := delEntries_count (normWord st k.data) (rootEntries st)
              es' b hd
            rw [countTerminals_root] at h
            simp [countTerminals, h]
            omega
  | setNWB l => simpa [applyOp] using h
  | addNWB c => simpa [applyOp] using h

/-- C6: after any sequence of public calls on a fresh store, length()
equals the number of terminal markers reachable from the root, and
re-inserting an already stored keyword leaves length() unchanged. -/
theorem C6_length_terminals (cs : Bool) (ops : List ApiOp) :
    length (applyOps ops (mkFlashText cs)) =
      (countTerminals (applyOps ops (mkFlashText cs)).keywordTrieDict : Int) ∧
    ∀ (k : String) (cn : Option String),
      contains (applyOps ops (mkFlashText cs)) k = true →
      length (addKeyword (applyOps ops (mkFlashText cs)) k cn).2 =
        length (applyOps ops (mkFlashText cs)) := by
  have hmain : ∀ (l : List ApiOp) (st : FlashText),
      st.termsInTrie = (countTerminals st.keywordTrieDict : Int) →
      (applyOps l st).termsInTrie =
        (countTerminals (applyOps l st).keywordTrieDict : Int) := by
    intro l
    induction l with
    | nil => intro st h; exact h
    | cons op l ih => intro st h; exact ih (applyOp st op) (applyOp_count st op h)
  refine ⟨hmain ops (mkFlashText cs)
    (by simp [mkFlashText, countTerminals, countEntries]), ?_⟩
  intro k cn hc
  by_cases hk : k = ""
  · simp [length, addKeyword, setItem, hk]
  · have hset := setEntries_stored
      (normWord (applyOps ops (mkFlashText cs)) k.data)
      (rootEntries (applyOps ops (mkFlashText cs))) (cn.getD k) hc
    simp [length, addKeyword, setItem, hk, hset]

/-- Witness for C6's re-insertion clause at a concrete input: jsStore
contains JS, and re-adding it leaves length() unchanged. -/
theorem C6_length_terminals_witness :
    contains (applyOps [.add "JS" (some "Javascript")] (mkFlashText false))
      "JS" = true ∧
    length (addKeyword
      (applyOps [.add "JS" (some "Javascript")] (mkFlashText false))
      "JS" (some "Chat")).2 =
      length (applyOps [.add "JS" (some "Javascript")] (mkFlashText false)) :=
  ⟨by decide,
   (C6_length_terminals false [.add "JS" (some "Javascript")]).2
     "JS" (some "Chat") (by decide)⟩

/-- In a well-formed node, deleting a key removes it entirely. -/
theorem mget_mdel_self (es : Entries) (k : TKey) (hwf : WFE es) :
    mget (mdel es k) k = none := by
  induction es with
  | nil => simp [mdel, mget]
  | cons e es ih =>
      obtain ⟨k0, v0⟩ := e
      cases hwf with
      | cons hnone hv hes =>
          by_cases h0 : k0 = k
          · subst h0
            simpa [mdel] using hnone
          · simp [mdel, h0, mget, ih hes]

/-- Values stored in a well-formed node are well-formed. -/
theorem WFE_mget (es : Entries) (k : TKey) (v : TrieVal) (hwf : WFE es)
    (h : mget es k = some v) : WFV v := by
  induction es with
  | nil => simp [mget] at h
  | cons e es ih =>
      obtain ⟨k0, v0⟩ := e
      cases hwf with
      | cons hnone hv hes =>
          by_cases h0 : k0 = k
          · subst h0
            simp [mget] at h
            subst h
            exact hv
          · simp [mget, h0] at h
            exact ih hes h

/-- A one-entry node whose lookup succeeds is that single entry. -/
theorem msize_one_singleton (es : Entries) (k : TKey) (v : TrieVal)
    (h1 : msize es = 1) (h2 : mget es k = some v) : es = [(k, v)] := by
  cases es with
  | nil => simp [msize] at h1
  | cons e es' =>
      obtain ⟨k0, v0⟩ := e
      simp [msize] at h1
      subst h1
      by_cases h0 : k0 = k
      · subst h0
        simp [mget] at h2
        rw [h2]
      · simp [mget, h0] at h2

/-- The pruning walk of _deleteItem succeeds exactly on stored
keywords. -/
theorem delEntries_none_iff (ks : List Char) (es : Entries) :
    delEntries es ks = none ↔ containsEntries es ks = false := by
  induction ks generalizing es with
  | nil =>
      unfold delEntries containsEntries walkEntries
      by_cases h : mhas es .kw <;> simp [h]
  | cons c cs ih =>
      unfold delEntries containsEntries walkEntries
      cases hm : mget es (.ch c) with
      | none => simp
      | some v =>
          cases v with
          | str s => simp
          | map es' =>
              have := ih es'
              cases hd : delEntries es' cs with
              | none => simpa [hd] using this
              | some p =>
                  simp only [hd] at this ⊢
                  constructor
                  · intro hcontra
                    by_cases hp : p.2 <;> simp [hp] at hcontra
                  · intro hc
                    have hject : (some p : Option (Entries × Bool)) = none :=
                      this.mpr hc
                    simp at hject

/-- Deleting one stored keyword preserves the lookup of every other
keyword (main lemma for C5).  The second conjunct drives the induction:
a node reporting the one-entry-chain flag holds no other keyword at
all, so its parent may drop the whole edge. -/
theorem delEntries_preserve (ks : List Char) (es : Entries) (r : Entries)
    (b : Bool) (hwf : WFE es) (h : delEntries es ks = some (r, b)) :
    (∀ ks', ks' ≠ ks → lookupRaw r ks' = lookupRaw es ks') ∧
    (b = true → ∀ ks', ks' ≠ ks → lookupRaw es ks' = none) := by
  induction ks generalizing es r b with
  | nil =>
      unfold delEntries at h
      by_cases hh : mhas es .kw
      · rw [if_pos hh] at h
        injection h with h
        have hr := congrArg Prod.fst h
        have hb := congrArg Prod.snd h
        simp only [Prod.fst, Prod.snd] at hr hb
        subst hr
        obtain ⟨v, hv⟩ : ∃ v, mget es .kw = some v := by
          unfold mhas at hh
          cases hm : mget es .kw with
          | none => rw [hm] at hh; simp at hh
          | some v => exact ⟨v, rfl⟩
        constructor
        · intro ks' hks
          cases ks' with
          | nil => exact absurd rfl hks
          | cons c cs' =>
              simp only [lookupRaw, walkEntries,
                mget_mdel_ne es .kw (.ch c) (by simp)]
        · intro hbt ks' hks
          have hsize : msize es = 1 := by
            rw [hbt] at hb
            simpa using hb.symm
          have hes := msize_one_singleton es .kw v hsize hv
          cases ks' with
          | nil => exact absurd rfl hks
          | cons c cs' =>
              rw [hes]
              simp [lookupRaw, walkEntries, mget]
      · rw [if_neg hh] at h
        exact absurd h (by simp)
  | cons c cs ih =>
      unfold delEntries at h
      cases hm : mget es (.ch c) with
      | none => simp [hm] at h
      | some v =>
          cases v with
          | str s => simp [hm] at h
          | map esc =>
              have hwfc : WFE esc := by
                have := WFE_mget es (.ch c) (.map esc) hwf hm
                cases this with
                | map hw => exact hw
              simp only [hm] at h
              cases hd : delEntries esc cs with
              | none => rw [hd] at h; simp at h
              | some p =>
                  obtain ⟨q, pb⟩ := p
                  rw [hd] at h
                  have hih := ih esc q pb hwfc hd
                  cases hpb : pb with
                  | true =>
                      rw [hpb] at h
                      simp only [if_pos rfl] at h
                      injection h with h
                      have hr := congrArg Prod.fst h
                      have hb := congrArg Prod.snd h
                      simp only [Prod.fst, Prod.snd] at hr hb
                      subst hr
                      have hqnone := hih.2 hpb
                      constructor
                      · intro ks' hks
                        cases ks' with
                        | nil =>
                            simp only [lookupRaw, walkEntries,
                              mget_mdel_kw_ch]
                        | cons c' cs' =>
                            by_cases hc' : c' = c
                            · subst hc'
                              by_cases hcs : cs' = cs
                              · exact absurd (by rw [hcs]) hks
                              · simp only [lookupRaw, walkEntries,
                                  mget_mdel_self es (.ch c') hwf, hm]
                                exact (hqnone cs' hcs).symm
                            · simp only [lookupRaw, walkEntries,
                                mget_mdel_ne es (.ch c) (.ch c')
                                  (by simp [hc'])]
                      · intro hbt ks' hks
                        have hsize : msize es = 1 := by
                          rw [hbt] at hb
                          simpa using hb.symm
                        have hes := msize_one_singleton es (.ch c)
                          (.map esc) hsize hm
                        cases ks' with
                        | nil =>
                            rw [hes]
                            simp [lookupRaw, walkEntries, mget]
                        | cons c' cs' =>
                            by_cases hc' : c' = c
                            · subst hc'
                              by_cases hcs : cs' = cs
                              · exact absurd (by rw [hcs]) hks
                              · rw [hes]
                                simp only [lookupRaw, walkEntries, mget,
                                  if_pos rfl]
                                exact hqnone cs' hcs
                            · rw [hes]
                              simp [lookupRaw, walkEntries, mget,
                                Ne.symm hc']
                  | false =>
                      rw [hpb] at h
                      simp only [Bool.false_eq_true, if_false] at h
                      injection h with h
                      have hr := congrArg Prod.fst h
                      have hb := congrArg Prod.snd h
                      simp only [Prod.fst, Prod.snd] at hr hb
                      subst hr
                      constructor
                      · intro ks' hks
                        cases ks' with
                        | nil =>
                            simp only [lookupRaw, walkEntries,
                              mget_mset_kw_ch]
                        | cons c' cs' =>
                            by_cases hc' : c' = c
                            · subst hc'
                              by_cases hcs : cs' = cs
                              · exact absurd (by rw [hcs]) hks
                              · simp only [lookupRaw, walkEntries,
                                  mget_mset_self, hm]
                                have := hih.1 cs' hcs
                                simp only [lookupRaw] at this
                                exact this
                            · simp only [lookupRaw, walkEntries,
                                mget_mset_ne es (.ch c) (.ch c') _
                                  (by simp [hc'])]
                      · intro hbt
                        rw [← hb] at hbt
                        simp at hbt

theorem containsEntries_eq_isSome (es : Entries) (ks : List Char) :
    containsEntries es ks = (lookupRaw es ks).isSome := by
  unfold containsEntries lookupRaw mhas
  cases walkEntries es ks <;> rfl

theorem lookupEntries_eq_raw (es : Entries) (ks : List Char) :
    lookupEntries es ks =
      (match lookupRaw es ks with
       | some (.str s) => some s
       | _ => none) := by
  unfold lookupEntries lookupRaw
  cases walkEntries es ks <;> rfl

theorem WFE_root (st : FlashText) (hwf : WFV st.keywordTrieDict) :
    WFE (rootEntries st) := by
  unfold rootEntries
  cases h : st.keywordTrieDict with
  | str s => exact WFE.nil
  | map es => rw [h] at hwf; cases hwf with | map hw => exact hw

/-- C5: on a well-formed store, removing a non-empty stored keyword
returns true, decrements the term count, and leaves every other keyword
(every word with a different normalized form) with its containment and
its stored label intact; removing an empty or unstored keyword returns
false and leaves the store untouched. -/
theorem C5_removeKeyword_spec (st : FlashText) (k : String)
    (hwf : WFV st.keywordTrieDict) :
    (k ≠ "" → contains st k = true →
      (removeKeyword st k).1 = true ∧
      length (removeKeyword st k).2 = length st - 1 ∧
      (∀ k' : String, normWord st k'.data ≠ normWord st k.data →
        contains (removeKeyword st k).2 k' = contains st k' ∧
        getKeyword (removeKeyword st k).2 k' = getKeyword st k')) ∧
    ((k = "" ∨ contains st k = false) → removeKeyword st k = (false, st)) := by
  constructor
  · intro hne hc
    unfold removeKeyword deleteItem
    rw [if_neg hne]
    cases hd : delEntries (rootEntries st) (normWord st k.data) with
    | none =>
        have hfalse := (delEntries_none_iff _ _).mp hd
        unfold contains at hc
        rw [hc] at hfalse
        cases hfalse
    | some p =>
        obtain ⟨es', b⟩ := p
        simp only [hd]
        refine ⟨trivial, rfl, ?_⟩
        intro k' hk'
        have hwfe := WFE_root st hwf
        have hp := (delEntries_preserve (normWord st k.data)
          (rootEntries st) es' b hwfe hd).1 (normWord st k'.data) hk'
        constructor
        · show containsEntries es' (normWord st k'.data) =
            containsEntries (rootEntries st) (normWord st k'.data)
          rw [containsEntries_eq_isSome, containsEntries_eq_isSome, hp]
        · show lookupEntries es' (normWord st k'.data) =
            lookupEntries (rootEntries st) (normWord st k'.data)
          rw [lookupEntries_eq_raw, lookupEntries_eq_raw, hp]
  · intro h
    unfold removeKeyword deleteItem
    cases h with
    | inl he => rw [if_pos he]
    | inr hc =>
        by_cases he : k = ""
        · rw [if_pos he]
        · rw [if_neg he]
          unfold contains at hc
          have hnone := (delEntries_none_iff
            (normWord st k.data) (rootEntries st)).mpr hc
          rw [hnone]

/-- Instance of C5 on the concrete two-keyword store with the shared
prefix ca: deleting cat succeeds, drops the count from 2 to 1, keeps
car contained with its label, and deleting the unstored dog fails
without touching the store. -/
theorem C5_removeKeyword_spec_witness :
    (removeKeyword catcarStore "cat").1 = true ∧
    length (removeKeyword catcarStore "cat").2 = length catcarStore - 1 ∧
    contains (removeKeyword catcarStore "cat").2 "car" =
      contains catcarStore "car" ∧
    getKeyword (removeKeyword catcarStore "cat").2 "car" =
      getKeyword catcarStore "car" ∧
    removeKeyword catcarStore "dog" = (false, catcarStore) := by
  have htrie : catcarStore.keywordTrieDict =
      TrieVal.map
        [(.ch 'c', .map
          [(.ch 'a', .map
            [(.ch 't', .map [(.kw, .str "cat")]),
             (.ch 'r', .map [(.kw, .str "car")])])])] := by decide
  have hwf : WFV catcarStore.keywordTrieDict := by
    rw [htrie]
    repeat first
      | exact WFE.nil
      | apply WFV.map
      | apply WFV.str
      | apply WFE.cons
      | decide
  have h1 := (C5_removeKeyword_spec catcarStore "cat" hwf).1
    (by decide) (by decide)
  have h2 := (C5_removeKeyword_spec catcarStore "dog" hwf).2
    (Or.inr (by decide))
  have h3 := h1.2.2 "car" (by decide)
  exact ⟨h1.1, h1.2.1, h3.1, h3.2, h2⟩

theorem rowTail_length (k : TKey) :
    ∀ (ws : List Char) (rs : List Nat) (pd ln : Nat),
      (rowTail k ws pd rs ln).length = min ws.length rs.length := by
  intro ws
  induction ws with
  | nil => intro rs pd ln; simp [rowTail]
  | cons w ws ih =>
      intro rs pd ln
      cases rs with
      | nil => simp [rowTail]
      | cons r rs' =>
          simp only [rowTail, List.length_cons, ih]
          omega

theorem rowTail_recur (k : TKey) :
    ∀ (ws : List Char) (rs : List Nat) (pd ln j : Nat),
      rs.length = ws.length → j < ws.length →
      (rowTail k ws pd rs ln).getD j 0 =
        min (min ((ln :: rowTail k ws pd rs ln).getD j 0 + 1)
            (rs.getD j 0 + 1))
          ((pd :: rs).getD j 0 + replCost k (ws.getD j (Char.ofNat 0))) := by
  intro ws
  induction ws with
  | nil => intro rs pd ln j hlen hj; simp at hj
  | cons w ws ih =>
      intro rs pd ln j hlen hj
      cases rs with
      | nil => simp at hlen
      | cons r rs' =>
          simp only [List.length_cons, Nat.add_right_cancel_iff] at hlen
          cases j with
          | zero => simp [rowTail]
          | succ j' =>
              have hj' : j' < ws.length := by
                simpa [Nat.succ_lt_succ_iff] using hj
              simp only [rowTail, List.getD_cons_succ]
              exact ih rs' r _ j' hlen hj'

theorem lastCost_spec (k : TKey) (word : List Char) (rows : List Nat)
    (hlen : rows.length = word.length + 1) :
    lastCost k word rows =
      if word = [] then 0 else (newRow k word rows).getLastD 0 := by
  cases word with
  | nil => simp [lastCost, rowTail]
  | cons w ws =>
      cases rows with
      | nil => simp at hlen
      | cons r0 rs =>
          cases rs with
          | nil => simp at hlen
          | cons r1 rs' =>
              simp [lastCost, newRow, rowTail, List.getLastD_cons]

/-- C4 (amended): for every candidate word, budget and node reached
through key k with a previous row of matching length, the new DP row
follows the Levenshtein recurrence new[0] = prev[0]+1 and
new[j] = min(new[j-1]+1, prev[j]+1, prev[j-1] + (word[j-1] != c ? 1 : 0));
the search yields exactly one triple and stops descending when the last
cell is within budget and the stop criterion holds, but the yielded cost
is the running cost variable - the last cell for a non-empty word and 0
for the empty word; otherwise it recurses into the children of a Map
node exactly when the row minimum is within budget, pruning the branch
when it is not. -/
theorem C4_levenshteinRec_spec (wsp word : List Char) (maxCost fuel : Nat)
    (k : TKey) (node : TrieVal) (rows : List Nat) (depth : Nat)
    (hlen : rows.length = word.length + 1) :
    (newRow k word rows).length = word.length + 1 ∧
    (newRow k word rows).getD 0 0 = rows.getD 0 0 + 1 ∧
    (∀ j, j < word.length →
      (newRow k word rows).getD (j + 1) 0 =
        min (min ((newRow k word rows).getD j 0 + 1)
            (rows.getD (j + 1) 0 + 1))
          (rows.getD j 0 + replCost k (word.getD j (Char.ofNat 0)))) ∧
    ((newRow k word rows).getLastD 0 ≤ maxCost ∧ stopCrit wsp node = true →
      levenshteinRec wsp word maxCost (fuel + 1) k node rows depth =
        [(node, if word = [] then 0 else (newRow k word rows).getLastD 0,
          depth)]) ∧
    (¬((newRow k word rows).getLastD 0 ≤ maxCost ∧
        stopCrit wsp node = true) →
      levenshteinRec wsp word maxCost (fuel + 1) k node rows depth =
        (match node with
         | .map es =>
             if listMin (newRow k word rows) ≤ maxCost then
               levenshteinList wsp word maxCost fuel es
                 (newRow k word rows) (depth + 1)
             else []
         | .str _ => [])) := by
  cases rows with
  | nil => simp at hlen
  | cons r0 rs =>
      have hrs : rs.length = word.length := by simpa using hlen
      refine ⟨?_, ?_, ?_, ?_, ?_⟩
      · simp [newRow, rowTail_length, hrs]
      · simp [newRow]
      · intro j hj
        simp only [newRow, List.headD_cons, List.tail_cons,
          List.getD_cons_succ]
        exact rowTail_recur k word rs r0 (r0 + 1) j hrs hj
      · intro h
        unfold levenshteinRec
        split
        · rw [lastCost_spec k word (r0 :: rs) hlen]
          exact if_pos h
        · exfalso
          have h2 := h.2
          simp [stopCrit] at h2
      · intro h
        unfold levenshteinRec
        split
        · exact if_neg h
        · exact if_neg h

/-- The acceptance clause of C4 at a concrete node: for word ab,
previous row [0, 1, 2] and key b, the new row is [1, 1, 1], the node
with a sentinel child stops the search within budget 1, and the yielded
cost equals the last cell 1 of the new row. -/
theorem C4_levenshteinRec_spec_witness :
    levenshteinRec [' '] ['a', 'b'] 1 3 (.ch 'b')
        (.map [(.kw, .str "x")]) [0, 1, 2] 1 =
      [(.map [(.kw, .str "x")],
        (newRow (.ch 'b') ['a', 'b'] [0, 1, 2]).getLastD 0, 1)] := by
  have h := (C4_levenshteinRec_spec [' '] ['a', 'b'] 1 2 (.ch 'b')
    (.map [(.kw, .str "x")]) [0, 1, 2] 1 (by decide)).2.2.2.1
    ⟨by decide, by decide⟩
  exact h.trans (by decide)

/-- Counterexample to the yielded-cost clause of C4 as stated: on the
empty candidate word the accepted node is reported with cost 0, the
initial value of the running cost variable, while the last cell of its
DP row is 1. -/
theorem C4_yield_cost_counterexample :
    levensthein [' '] [] 1 5 (.map [(.ch 'a', .map [(.kw, .str "x")])]) =
      [(.map [(.kw, .str "x")], 0, 1)] ∧
    (newRow (.ch 'a') [] (initRows 0)).getLastD 0 = 1 := by
  decide
